import Mathlib

/-!
Verification development for the maze generator in `src/maze/src/main.rs`
(`billiob/maze.rs`).  The program carves a maze on an RGB raster with a
randomized variant of Prim's algorithm: cell state (`Wall`/`Path`/`Undefined`)
is derived from the color of the top-left pixel of each `pixel_size`-sized
cell block, and a frontier vector of coordinates drives the growth loop.

The embedding below mirrors the Rust source:
* `Img` models `image::RgbImage`; `Img.putPixel` returns `none` when the
  coordinates are outside the raster, modelling the out-of-bounds panic of
  `RgbImage::put_pixel`.  (`Img.set` is the raw in-bounds update; the writes
  of `Maze.new` are within bounds for every input, see `Maze.new` below.)
* `Maze` carries the same fields as the Rust `Maze` struct.  `u32` values are
  modelled as `Nat`; no arithmetic in the program overflows `u32` at the
  sizes the theorems quantify over, and the single underflowing expression
  (`grid_height - 1` when `grid_height = 0`, inside `get_coord_down`) is
  never evaluated by any theorem below: on zero-dimension grids the run
  already fails inside the very first `draw_path`.
* Fallible raster writes make `draw_path` / `draw_wall` / the whole
  generation return `Option`; `none` models a runtime panic.
* The random source (`rand::random::<usize>()` for the frontier index and
  `rand::random::<Direction>() = next_u32 % 4` for the direction) is an
  oracle `rnd : Nat → Nat × Nat` giving the pair of raw samples consumed by
  iteration `k` of the loop.
* The loop `while !walls.is_empty()` is embedded with explicit fuel; a run
  that exhausts its fuel simply returns the state reached so far, which also
  lets theorems talk about intermediate states of an execution.
-/

/-- An RGB color, 3-channel 8-bit in the program; channel bounds are never
relevant to the claims, so channels are plain `Nat`s. -/
abbrev Color := Nat × Nat × Nat

/-- Sentinel `path_color: Rgb{data:[253, 246, 227]}` from `Maze::new`. -/
def pathRGB : Color := (253, 246, 227)

/-- Sentinel `wall_color: Rgb{data:[7, 54, 66]}` from `Maze::new`. -/
def wallRGB : Color := (7, 54, 66)

/-- Default color: `RgbImage::new` zero-initializes every pixel. -/
def blackRGB : Color := (0, 0, 0)

/-- The raster surface (`image::RgbImage`): dimensions plus pixel data. -/
structure Img where
  width : Nat
  height : Nat
  data : Nat → Nat → Color

/-- Raw pixel store, no bounds check (used where the write is in bounds). -/
def Img.set (im : Img) (x y : Nat) (c : Color) : Img :=
  { im with data := fun a b => if a = x ∧ b = y then c else im.data a b }

/-- Checked write `RgbImage::put_pixel`, which panics when `(x, y)` is outside the raster;
the panic is modelled by `none`. -/
def Img.putPixel (im : Img) (x y : Nat) (c : Color) : Option Img :=
  if x < im.width ∧ y < im.height then some (im.set x y c) else none

/-- Write a list of pixels with `Img.set` (loop bodies of `Maze::new`). -/
def Img.setMany (im : Img) (l : List (Nat × Nat)) (c : Color) : Img :=
  l.foldl (fun i q => i.set q.1 q.2 c) im

/-- Write a list of pixels with the checked `Img.putPixel` (loop bodies of
`Maze::draw_path` / `Maze::draw_wall`). -/
def Img.putMany (im : Img) (l : List (Nat × Nat)) (c : Color) : Option Img :=
  l.foldlM (fun i q => i.putPixel q.1 q.2 c) im

/-- Translation of `struct Coord { x: u32, y: u32 }`. -/
structure Coord where
  x : Nat
  y : Nat
deriving DecidableEq, Repr

/-- Translation of `enum Direction { Up, Down, Left, Right }`. -/
inductive Direction where
  | up
  | down
  | left
  | right
deriving DecidableEq, Repr

/-- Sampling from `impl Rand for Direction`: `rng.next_u32() % 4` mapped as
`0 => Up, 1 => Down, 2 => Left, _ => Right`. -/
def Direction.sample (n : Nat) : Direction :=
  match n % 4 with
  | 0 => .up
  | 1 => .down
  | 2 => .left
  | _ => .right

/-- Translation of `enum CellKind { Wall, Path, Undefined }`. -/
inductive CellKind where
  | wall
  | path
  | undefined
deriving DecidableEq, Repr

/-- Translation of `struct Maze`, same fields as the Rust struct (`pixel_size` is the cell
size in pixels). -/
structure Maze where
  img : Img
  pixelSize : Nat
  width : Nat
  height : Nat
  gridWidth : Nat
  gridHeight : Nat
  pathColor : Color
  wallColor : Color

/-- Pixels written by the first border loop of `Maze::new` (the partial
trailing columns `x = grid_width * pixel_size + i`, `i < d`, full height). -/
def borderCols (W H ps : Nat) : List (Nat × Nat) :=
  (List.range (W - W / ps * ps)).flatMap fun i =>
    (List.range H).map fun y => (W / ps * ps + i, y)

/-- Pixels written by the second border loop of `Maze::new` (the partial
trailing rows `y = grid_height * pixel_size + i`, `i < d`, full width). -/
def borderRows (W H ps : Nat) : List (Nat × Nat) :=
  (List.range (H - H / ps * ps)).flatMap fun i =>
    (List.range W).map fun x => (x, H / ps * ps + i)

/-- Constructor `Maze::new(width, height, pixel_size)`: build the raster, then pre-paint
the partial trailing columns and rows with the wall color.  Every one of
these border writes is within the raster for every input (the columns have
`x = W/ps*ps + i < W` and `y < H`, the rows symmetrically), so the raw
`Img.set` coincides with the crate's `put_pixel` here. -/
def Maze.new (W H ps : Nat) : Maze :=
  let im0 : Img := ⟨W, H, fun _ _ => blackRGB⟩
  let im1 := im0.setMany (borderCols W H ps) wallRGB
  let im2 := im1.setMany (borderRows W H ps) wallRGB
  { img := im2
    pixelSize := ps
    width := W
    height := H
    gridWidth := W / ps
    gridHeight := H / ps
    pathColor := pathRGB
    wallColor := wallRGB }

/-- Classification `Maze::cell_kind` (the source reads the pixel into a
local `let p`): out-of-grid coordinates are `Undefined`; otherwise
sample the pixel at the cell origin and compare with the two sentinels.
The pixel read (`get_pixel`) is within the raster whenever the coordinate
passes the grid bounds check, for any maze produced by `Maze::new`. -/
def Maze.cellKind (m : Maze) (c : Coord) : CellKind :=
  if c.x ≥ m.gridWidth ∨ c.y ≥ m.gridHeight then .undefined
  else if m.img.data (c.x * m.pixelSize) (c.y * m.pixelSize) = m.wallColor then .wall
  else if m.img.data (c.x * m.pixelSize) (c.y * m.pixelSize) = m.pathColor then .path
  else .undefined

/-- The pixel block of cell `c`: offsets `i` (x, outer loop) and `j`
(y, inner loop) in `0..pixel_size`, as iterated by `draw_path`/`draw_wall`. -/
def Maze.blockPixels (m : Maze) (c : Coord) : List (Nat × Nat) :=
  (List.range m.pixelSize).flatMap fun i =>
    (List.range m.pixelSize).map fun j =>
      (c.x * m.pixelSize + i, c.y * m.pixelSize + j)

/-- Painter `Maze::draw_path`: fill the cell block with the path color
(checked writes; `none` models the `put_pixel` panic). -/
def Maze.drawPath (m : Maze) (c : Coord) : Option Maze :=
  (m.img.putMany (m.blockPixels c) m.pathColor).map fun im => { m with img := im }

/-- Painter `Maze::draw_wall`: fill the cell block with the wall color. -/
def Maze.drawWall (m : Maze) (c : Coord) : Option Maze :=
  (m.img.putMany (m.blockPixels c) m.wallColor).map fun im => { m with img := im }

/-- Translation of `Maze::get_coord_up`. -/
def Maze.getCoordUp (_m : Maze) (c : Coord) : Option Coord :=
  if c.y = 0 then none else some ⟨c.x, c.y - 1⟩

/-- Translation of `Maze::get_coord_down` (`if c.y >= self.grid_height - 1`).
The `u32` subtraction underflows in Rust when `grid_height = 0`; no theorem
below evaluates this function on a zero-height grid. -/
def Maze.getCoordDown (m : Maze) (c : Coord) : Option Coord :=
  if c.y ≥ m.gridHeight - 1 then none else some ⟨c.x, c.y + 1⟩

/-- Translation of `Maze::get_coord_left`. -/
def Maze.getCoordLeft (_m : Maze) (c : Coord) : Option Coord :=
  if c.x = 0 then none else some ⟨c.x - 1, c.y⟩

/-- Translation of `Maze::get_coord_right` (`if c.x >= self.grid_width - 1`). -/
def Maze.getCoordRight (m : Maze) (c : Coord) : Option Coord :=
  if c.x ≥ m.gridWidth - 1 then none else some ⟨c.x + 1, c.y⟩

/-- Translation of `Maze::get_coord_next`. -/
def Maze.getCoordNext (m : Maze) (c : Coord) : Direction → Option Coord
  | .up => m.getCoordUp c
  | .down => m.getCoordDown c
  | .left => m.getCoordLeft c
  | .right => m.getCoordRight c

/-- One direction of the `for d in dirs` loop body of
`Maze::add_walls_around`: if the neighbor of `c` in direction `d` exists and
is `Undefined`, paint it as a wall and push it onto the frontier. -/
def Maze.addWallStep (m : Maze) (c : Coord) (walls : List Coord)
    (d : Direction) : Option (Maze × List Coord) :=
  match m.getCoordNext c d with
  | none => some (m, walls)
  | some w =>
    match m.cellKind w with
    | .undefined => (m.drawWall w).map fun m' => (m', walls ++ [w])
    | _ => some (m, walls)

/-- Translation of `Maze::add_walls_around`: run the loop body over the four directions in
the order `Up, Down, Left, Right`. -/
def Maze.addWallsAround (m : Maze) (c : Coord) (walls : List Coord) :
    Option (Maze × List Coord) :=
  [Direction.up, Direction.down, Direction.left, Direction.right].foldlM
    (fun s d => s.1.addWallStep c s.2 d) (m, walls)

/-- Translation of `Vec::swap_remove(pos)` from `pop_random_wall`: overwrite position `pos` with the last element
and pop the last element.  (Rust panics on an empty vector; the loop below
only calls this on a nonempty frontier.) -/
def swapRemove (l : List Coord) (pos : Nat) : List Coord :=
  match l.getLast? with
  | none => []
  | some a => (l.set pos a).dropLast

/-- Body of one iteration of the `while` loop of `Maze::randomized_prim`,
after the wall `w` has been removed from the frontier and the random
direction `d` has been sampled: if the neighbor in direction `d` exists and
is `Undefined`, expand (`add_walls_around` the neighbor, then `draw_path`
the neighbor and `w`); otherwise leave the state untouched. -/
def Maze.primStep (m : Maze) (w : Coord) (d : Direction) (walls : List Coord) :
    Option (Maze × List Coord) :=
  match m.getCoordNext w d with
  | none => some (m, walls)
  | some c =>
    match m.cellKind c with
    | .undefined => do
      let s ← m.addWallsAround c walls
      let m2 ← s.1.drawPath c
      let m3 ← m2.drawPath w
      some (m3, s.2)
    | _ => some (m, walls)

/-- The `while !walls.is_empty()` loop of `Maze::randomized_prim`, with
explicit fuel.  Iteration `k` consumes the random pair `rnd k`:
`pop_random_wall` takes the element at index `(rnd k).1 % walls.len()` by
`swap_remove`, and the direction is `Direction.sample (rnd k).2`.  Exhausted
fuel returns the state reached so far (used to observe intermediate
states); the loop proper only stops on an empty frontier. -/
def Maze.primLoop (m : Maze) (walls : List Coord) (rnd : Nat → Nat × Nat)
    (k : Nat) : Nat → Option (Maze × List Coord)
  | 0 => some (m, walls)
  | fuel + 1 =>
    match walls with
    | [] => some (m, [])
    | a :: as =>
      let r := rnd k
      let pos := r.1 % (a :: as).length
      let w := (a :: as).get ⟨pos, Nat.mod_lt _ (Nat.succ_pos as.length)⟩
      let walls' := swapRemove (a :: as) pos
      match m.primStep w (Direction.sample r.2) walls' with
      | none => none
      | some s => s.1.primLoop s.2 rnd (k + 1) fuel

/-- The initialization phase of `Maze::randomized_prim`: start from the empty
frontier, `draw_path` the start cell `(0,0)`, then `add_walls_around` it. -/
def Maze.primInit (m : Maze) : Option (Maze × List Coord) := do
  let m1 ← m.drawPath ⟨0, 0⟩
  m1.addWallsAround ⟨0, 0⟩ []

/-- Translation of `Maze::randomized_prim`: initialization followed by the frontier loop. -/
def Maze.randomizedPrim (m : Maze) (rnd : Nat → Nat × Nat) (fuel : Nat) :
    Option (Maze × List Coord) := do
  let s ← m.primInit
  s.1.primLoop s.2 rnd 0 fuel

/-- Translation of `Maze::save`: `let _ = self.img.save(path);` — the `Result` of the
raster write is bound to `_` and dropped; the maze is not touched. -/
def Maze.save (m : Maze) (writeResult : Except String Unit) : Maze × Unit :=
  let _ := writeResult
  (m, ())

/-! ### Basic well-formedness and grid notions -/

/-- A coordinate inside the logical grid. -/
def Maze.InGrid (m : Maze) (c : Coord) : Prop :=
  c.x < m.gridWidth ∧ c.y < m.gridHeight

instance (m : Maze) (c : Coord) : Decidable (m.InGrid c) := by
  unfold Maze.InGrid; infer_instance

/-- Structural well-formedness, true of every maze built by `Maze.new` with a
positive cell size and preserved by all raster writes: the stored dimensions
agree with the raster, the grid dimensions are the floored quotients, and the
sentinel colors are the two constants. -/
def Maze.WF (m : Maze) : Prop :=
  m.width = m.img.width ∧ m.height = m.img.height ∧
    m.gridWidth = m.width / m.pixelSize ∧ m.gridHeight = m.height / m.pixelSize ∧
    1 ≤ m.pixelSize ∧ m.pathColor = pathRGB ∧ m.wallColor = wallRGB

instance (m : Maze) : Decidable m.WF := by
  unfold Maze.WF; infer_instance

/-- Four-adjacency of two grid coordinates. -/
def Adjacent (a b : Coord) : Prop :=
  (a.x = b.x ∧ (a.y + 1 = b.y ∨ b.y + 1 = a.y)) ∨
    (a.y = b.y ∧ (a.x + 1 = b.x ∨ b.x + 1 = a.x))

theorem Adjacent.symm {a b : Coord} (h : Adjacent a b) : Adjacent b a := by
  unfold Adjacent at h ⊢; omega

/-- One step between 4-adjacent `Path` cells of `m`. -/
def PathStep (m : Maze) (a b : Coord) : Prop :=
  Adjacent a b ∧ m.cellKind a = .path ∧ m.cellKind b = .path

/-- Reachability along `Path` cells of `m` (reflexive-transitive closure of
`PathStep`). -/
def PathReach (m : Maze) : Coord → Coord → Prop :=
  Relation.ReflTransGen (PathStep m)

/-! ### Raster write lemmas -/

theorem Img.set_width (im : Img) (x y : Nat) (c : Color) :
    (im.set x y c).width = im.width := rfl

theorem Img.set_height (im : Img) (x y : Nat) (c : Color) :
    (im.set x y c).height = im.height := rfl

theorem Img.setMany_width (im : Img) (l : List (Nat × Nat)) (c : Color) :
    (im.setMany l c).width = im.width := by
  induction l generalizing im with
  | nil => rfl
  | cons q l ih => simpa [Img.setMany, List.foldl_cons] using ih (im.set q.1 q.2 c)

theorem Img.setMany_height (im : Img) (l : List (Nat × Nat)) (c : Color) :
    (im.setMany l c).height = im.height := by
  induction l generalizing im with
  | nil => rfl
  | cons q l ih => simpa [Img.setMany, List.foldl_cons] using ih (im.set q.1 q.2 c)

theorem Img.setMany_data (im : Img) (l : List (Nat × Nat)) (c : Color) (x y : Nat) :
    (im.setMany l c).data x y = if (x, y) ∈ l then c else im.data x y := by
  induction l generalizing im with
  | nil => simp [Img.setMany]
  | cons q l ih =>
    rw [Img.setMany, List.foldl_cons, ← Img.setMany, ih]
    by_cases hm : (x, y) ∈ l
    · simp [hm]
    · simp only [hm, if_false, List.mem_cons]
      by_cases hq : (x, y) = q
      · have hx : x = q.1 ∧ y = q.2 := by
          constructor <;> { rw [← hq] }
        simp [Img.set, hq, hx]
      · have hx : ¬(x = q.1 ∧ y = q.2) := by
          intro ⟨h1, h2⟩; exact hq (by cases q; simp_all)
        simp [Img.set, hq, hx, hm]

theorem Img.putMany_eq (im : Img) (l : List (Nat × Nat)) (c : Color) :
    im.putMany l c =
      if ∀ q ∈ l, q.1 < im.width ∧ q.2 < im.height then some (im.setMany l c)
      else none := by
  induction l generalizing im with
  | nil => simp [Img.putMany, Img.setMany]
  | cons q l ih =>
    rw [Img.putMany, List.foldlM_cons]
    by_cases hq : q.1 < im.width ∧ q.2 < im.height
    · rw [Img.putPixel, if_pos hq]
      show (im.set q.1 q.2 c).putMany l c = _
      rw [ih]
      have hw := Img.set_width im q.1 q.2 c
      have hh := Img.set_height im q.1 q.2 c
      by_cases hall : ∀ p ∈ l, p.1 < im.width ∧ p.2 < im.height
      · rw [if_pos (by simpa [hw, hh] using hall),
          if_pos (by intro p hp; rcases List.mem_cons.1 hp with rfl | hp
                     exacts [hq, hall p hp])]
        rfl
      · rw [if_neg (by simpa [hw, hh] using hall),
          if_neg (by intro hc; exact hall fun p hp => hc p (List.mem_cons_of_mem q hp))]
    · rw [Img.putPixel, if_neg hq]
      have : ¬∀ p ∈ q :: l, p.1 < im.width ∧ p.2 < im.height := by
        intro hc; exact hq (hc q (List.mem_cons_self q l))
      rw [if_neg this]
      rfl


/-! ### Cell blocks and the effect of `draw_path` / `draw_wall` -/

/-- The raster after an (in-bounds) block fill; `drawPath`/`drawWall` reduce
to `some (m.paint c col)` whenever the block lies inside the raster. -/
def Maze.paint (m : Maze) (c : Coord) (col : Color) : Maze :=
  { m with img := m.img.setMany (m.blockPixels c) col }

theorem Maze.mem_blockPixels (m : Maze) (c : Coord) (a b : Nat) :
    (a, b) ∈ m.blockPixels c ↔
      c.x * m.pixelSize ≤ a ∧ a < c.x * m.pixelSize + m.pixelSize ∧
        c.y * m.pixelSize ≤ b ∧ b < c.y * m.pixelSize + m.pixelSize := by
  simp only [Maze.blockPixels, List.mem_flatMap, List.mem_map, List.mem_range]
  constructor
  · rintro ⟨i, hi, j, hj, h⟩
    simp only [Prod.mk.injEq] at h
    omega
  · rintro ⟨h1, h2, h3, h4⟩
    exact ⟨a - c.x * m.pixelSize, by omega, b - c.y * m.pixelSize, by omega, by
      simp only [Prod.mk.injEq]; omega⟩

theorem Maze.drawPath_eq (m : Maze) (c : Coord) :
    m.drawPath c =
      if ∀ q ∈ m.blockPixels c, q.1 < m.img.width ∧ q.2 < m.img.height then
        some (m.paint c m.pathColor)
      else none := by
  rw [Maze.drawPath, Img.putMany_eq]
  by_cases h : ∀ q ∈ m.blockPixels c, q.1 < m.img.width ∧ q.2 < m.img.height
  · rw [if_pos h, if_pos h]; rfl
  · rw [if_neg h, if_neg h]; rfl

theorem Maze.drawWall_eq (m : Maze) (c : Coord) :
    m.drawWall c =
      if ∀ q ∈ m.blockPixels c, q.1 < m.img.width ∧ q.2 < m.img.height then
        some (m.paint c m.wallColor)
      else none := by
  rw [Maze.drawWall, Img.putMany_eq]
  by_cases h : ∀ q ∈ m.blockPixels c, q.1 < m.img.width ∧ q.2 < m.img.height
  · rw [if_pos h, if_pos h]; rfl
  · rw [if_neg h, if_neg h]; rfl

/-- For a well-formed maze and an in-grid cell, the whole cell block lies
inside the raster. -/
theorem Maze.blockPixels_inRaster {m : Maze} (hwf : m.WF) {c : Coord}
    (hc : m.InGrid c) :
    ∀ q ∈ m.blockPixels c, q.1 < m.img.width ∧ q.2 < m.img.height := by
  obtain ⟨hw, hh, hgw, hgh, hps, -, -⟩ := hwf
  rintro ⟨a, b⟩ hq
  rw [Maze.mem_blockPixels] at hq
  have hx : (c.x + 1) * m.pixelSize ≤ m.img.width := by
    calc (c.x + 1) * m.pixelSize ≤ m.gridWidth * m.pixelSize :=
          Nat.mul_le_mul_right _ hc.1
    _ = m.width / m.pixelSize * m.pixelSize := by rw [hgw]
    _ ≤ m.width := Nat.div_mul_le_self _ _
    _ = m.img.width := hw
  have hy : (c.y + 1) * m.pixelSize ≤ m.img.height := by
    calc (c.y + 1) * m.pixelSize ≤ m.gridHeight * m.pixelSize :=
          Nat.mul_le_mul_right _ hc.2
    _ = m.height / m.pixelSize * m.pixelSize := by rw [hgh]
    _ ≤ m.height := Nat.div_mul_le_self _ _
    _ = m.img.height := hh
  rw [Nat.succ_mul] at hx hy
  exact ⟨by omega, by omega⟩

theorem Maze.drawPath_some {m : Maze} (hwf : m.WF) {c : Coord} (hc : m.InGrid c) :
    m.drawPath c = some (m.paint c m.pathColor) := by
  rw [Maze.drawPath_eq, if_pos (m.blockPixels_inRaster hwf hc)]

theorem Maze.drawWall_some {m : Maze} (hwf : m.WF) {c : Coord} (hc : m.InGrid c) :
    m.drawWall c = some (m.paint c m.wallColor) := by
  rw [Maze.drawWall_eq, if_pos (m.blockPixels_inRaster hwf hc)]

theorem Maze.paint_WF {m : Maze} (hwf : m.WF) (c : Coord) (col : Color) :
    (m.paint c col).WF := by
  obtain ⟨hw, hh, hgw, hgh, hps, hpc, hwc⟩ := hwf
  refine ⟨?_, ?_, hgw, hgh, hps, hpc, hwc⟩
  · show m.width = (m.img.setMany (m.blockPixels c) col).width
    rw [Img.setMany_width]; exact hw
  · show m.height = (m.img.setMany (m.blockPixels c) col).height
    rw [Img.setMany_height]; exact hh

/-- Congruence: `cellKind` only looks at grid dimensions, cell size, the two sentinel
colors and the origin pixel of the queried cell. -/
theorem Maze.cellKind_congr {m m' : Maze} (c : Coord)
    (h1 : m'.gridWidth = m.gridWidth) (h2 : m'.gridHeight = m.gridHeight)
    (h3 : m'.pixelSize = m.pixelSize) (h4 : m'.wallColor = m.wallColor)
    (h5 : m'.pathColor = m.pathColor)
    (h6 : m'.img.data (c.x * m.pixelSize) (c.y * m.pixelSize) =
      m.img.data (c.x * m.pixelSize) (c.y * m.pixelSize)) :
    m'.cellKind c = m.cellKind c := by
  rw [Maze.cellKind, Maze.cellKind, h1, h2, h3, h4, h5, h6]

/-- Painting one cell block does not change the classification of any other
cell: distinct cells have disjoint blocks. -/
theorem Maze.paint_cellKind_other {m : Maze} (hps : 1 ≤ m.pixelSize)
    {c c' : Coord} (hne : c' ≠ c) (col : Color) :
    (m.paint c col).cellKind c' = m.cellKind c' := by
  refine Maze.cellKind_congr c' rfl rfl rfl rfl rfl ?_
  show (m.img.setMany (m.blockPixels c) col).data _ _ = _
  rw [Img.setMany_data, if_neg]
  intro hmem
  rw [Maze.mem_blockPixels] at hmem
  obtain ⟨h1, h2, h3, h4⟩ := hmem
  apply hne
  have hxlt1 : c'.x * m.pixelSize < (c.x + 1) * m.pixelSize := by
    rw [Nat.succ_mul]; omega
  have hylt1 : c'.y * m.pixelSize < (c.y + 1) * m.pixelSize := by
    rw [Nat.succ_mul]; omega
  have hxle : c.x ≤ c'.x := Nat.le_of_mul_le_mul_right h1 hps
  have hxlt : c'.x < c.x + 1 := Nat.lt_of_mul_lt_mul_right hxlt1
  have hyle : c.y ≤ c'.y := Nat.le_of_mul_le_mul_right h3 hps
  have hylt : c'.y < c.y + 1 := Nat.lt_of_mul_lt_mul_right hylt1
  have hx : c'.x = c.x := by omega
  have hy : c'.y = c.y := by omega
  cases c; cases c'
  simp only [Coord.mk.injEq]
  exact ⟨hx, hy⟩

/-- Painting an in-grid cell classifies it according to the painted color. -/
theorem Maze.paint_cellKind_self {m : Maze} (hwf : m.WF) {c : Coord}
    (hc : m.InGrid c) (col : Color) :
    (m.paint c col).cellKind c =
      if col = m.wallColor then .wall
      else if col = m.pathColor then .path
      else .undefined := by
  have hps : 1 ≤ m.pixelSize := hwf.2.2.2.2.1
  have hdata : (m.paint c col).img.data (c.x * m.pixelSize) (c.y * m.pixelSize) = col := by
    show (m.img.setMany (m.blockPixels c) col).data _ _ = col
    rw [Img.setMany_data, if_pos (by rw [Maze.mem_blockPixels]; omega)]
  have hb : ¬(c.x ≥ (m.paint c col).gridWidth ∨ c.y ≥ (m.paint c col).gridHeight) := by
    push_neg
    exact ⟨hc.1, hc.2⟩
  rw [Maze.cellKind, if_neg hb]
  show (if (m.paint c col).img.data (c.x * m.pixelSize) (c.y * m.pixelSize) = m.wallColor
    then CellKind.wall
    else if (m.paint c col).img.data (c.x * m.pixelSize) (c.y * m.pixelSize) = m.pathColor
    then CellKind.path else CellKind.undefined) = _
  rw [hdata]

theorem Maze.paint_cellKind_path {m : Maze} (hwf : m.WF) {c : Coord}
    (hc : m.InGrid c) : (m.paint c m.pathColor).cellKind c = .path := by
  rw [Maze.paint_cellKind_self hwf hc, hwf.2.2.2.2.2.1, hwf.2.2.2.2.2.2]
  decide

theorem Maze.paint_cellKind_wall {m : Maze} (hwf : m.WF) {c : Coord}
    (hc : m.InGrid c) : (m.paint c m.wallColor).cellKind c = .wall := by
  rw [Maze.paint_cellKind_self hwf hc, if_pos rfl]

/-! ### Neighbor geometry lemmas -/

theorem Maze.getCoordNext_congr {m m' : Maze} (c : Coord) (d : Direction)
    (h1 : m'.gridWidth = m.gridWidth) (h2 : m'.gridHeight = m.gridHeight) :
    m'.getCoordNext c d = m.getCoordNext c d := by
  cases d <;>
    simp only [Maze.getCoordNext, Maze.getCoordUp, Maze.getCoordDown,
      Maze.getCoordLeft, Maze.getCoordRight, h1, h2]

theorem Maze.getCoordNext_adjacent {m : Maze} {c e : Coord} {d : Direction}
    (h : m.getCoordNext c d = some e) : Adjacent c e := by
  cases d <;>
    · simp only [Maze.getCoordNext, Maze.getCoordUp, Maze.getCoordDown,
        Maze.getCoordLeft, Maze.getCoordRight] at h
      split at h
      · exact absurd h (by simp)
      · obtain rfl : _ = e := Option.some.inj h
        unfold Adjacent
        dsimp only
        omega

theorem Maze.getCoordNext_inGrid {m : Maze} {c e : Coord} {d : Direction}
    (hc : m.InGrid c) (h : m.getCoordNext c d = some e) : m.InGrid e := by
  obtain ⟨hx, hy⟩ := hc
  cases d <;>
    · simp only [Maze.getCoordNext, Maze.getCoordUp, Maze.getCoordDown,
        Maze.getCoordLeft, Maze.getCoordRight] at h
      split at h
      · exact absurd h (by simp)
      · obtain rfl : _ = e := Option.some.inj h
        unfold Maze.InGrid
        dsimp only
        omega

theorem Adjacent.ne {a b : Coord} (h : Adjacent a b) : b ≠ a := by
  intro he
  subst he
  unfold Adjacent at h
  omega

theorem Maze.getCoordNext_ne {m : Maze} {c e : Coord} {d : Direction}
    (h : m.getCoordNext c d = some e) : e ≠ c :=
  (m.getCoordNext_adjacent h).ne

/-- The four neighbors of a cell are pairwise distinct (whenever defined). -/
theorem Maze.getCoordNext_inj {m : Maze} {c e : Coord} {d d' : Direction}
    (h : m.getCoordNext c d = some e) (h' : m.getCoordNext c d' = some e) :
    d = d' := by
  cases d <;> cases d' <;> first
  | rfl
  | · simp only [Maze.getCoordNext, Maze.getCoordUp, Maze.getCoordDown,
        Maze.getCoordLeft, Maze.getCoordRight] at h h'
      split at h
      · exact absurd h (by simp)
      · split at h'
        · exact absurd h' (by simp)
        · have h1 := Option.some.inj h
          have h2 := Option.some.inj h'
          rw [← h1] at h2
          simp only [Coord.mk.injEq] at h2
          omega

/-! ### `swap_remove` lemmas -/

theorem swapRemove_length {l : List Coord} {pos : Nat} (h : pos < l.length) :
    (swapRemove l pos).length = l.length - 1 := by
  have hne : l ≠ [] := by
    intro hl; rw [hl] at h; exact absurd h (by simp)
  rw [swapRemove, List.getLast?_eq_getLast l hne]
  simp

theorem swapRemove_perm {l : List Coord} {pos : Nat} (h : pos < l.length) :
    List.Perm (swapRemove l pos) (l.eraseIdx pos) := by
  have hne : l ≠ [] := by
    intro hl; rw [hl] at h; exact absurd h (by simp)
  rw [swapRemove, List.getLast?_eq_getLast l hne]
  show List.Perm ((l.set pos (l.getLast hne)).dropLast) (l.eraseIdx pos)
  rw [List.set_eq_take_cons_drop _ h, List.eraseIdx_eq_take_drop_succ]
  by_cases hd : l.drop (pos + 1) = []
  · rw [hd]
    rw [List.dropLast_append_of_ne_nil _ (by simp)]
    simp
  · have hsome : (l.drop (pos + 1)).getLast? = some (l.getLast hne) := by
      rw [← List.getLast?_eq_getLast l hne]
      conv_rhs => rw [← List.take_append_drop (pos + 1) l]
      exact (List.getLast?_append_of_ne_nil _ hd).symm
    rw [List.dropLast_append_of_ne_nil _ (by simp),
      List.dropLast_cons_of_ne_nil hd]
    have hre : (l.drop (pos + 1)).dropLast ++ [l.getLast hne] = l.drop (pos + 1) :=
      List.dropLast_append_getLast? _ hsome
    have hp : List.Perm
        (l.getLast hne :: (l.drop (pos + 1)).dropLast)
        ((l.drop (pos + 1)).dropLast ++ [l.getLast hne]) :=
      (List.perm_append_singleton _ _).symm
    have hq := List.Perm.append_left (List.take pos l) hp
    rwa [hre] at hq

theorem mem_of_mem_swapRemove {l : List Coord} {pos : Nat} (h : pos < l.length)
    {e : Coord} (he : e ∈ swapRemove l pos) : e ∈ l :=
  (List.eraseIdx_sublist l pos).mem ((swapRemove_perm h).mem_iff.1 he)

theorem swapRemove_nodup {l : List Coord} {pos : Nat} (h : pos < l.length)
    (hl : l.Nodup) : (swapRemove l pos).Nodup :=
  (swapRemove_perm h).nodup_iff.2 (hl.sublist (List.eraseIdx_sublist l pos))

theorem get_notMem_swapRemove {l : List Coord} {pos : Nat} (h : pos < l.length)
    (hl : l.Nodup) : l.get ⟨pos, h⟩ ∉ swapRemove l pos := by
  intro hmem
  have hmem2 : l.get ⟨pos, h⟩ ∈ l.eraseIdx pos := (swapRemove_perm h).mem_iff.1 hmem
  rw [List.eraseIdx_eq_take_drop_succ] at hmem2
  have hdecomp : l = l.take pos ++ l.get ⟨pos, h⟩ :: l.drop (pos + 1) := by
    rw [List.get_eq_getElem, ← List.drop_eq_getElem_cons h, List.take_append_drop]
  rw [hdecomp, List.nodup_append] at hl
  obtain ⟨-, hl2, hdisj⟩ := hl
  rcases List.mem_append.1 hmem2 with hmem3 | hmem3
  · exact hdisj hmem3 (List.mem_cons_self _ _)
  · exact (List.nodup_cons.1 hl2).1 hmem3

/-! ### The termination measure: number of `Undefined` in-grid cells -/

/-- Number of in-grid cells currently classified `Undefined`. -/
def Maze.undefCount (m : Maze) : Nat :=
  ((Finset.range m.gridWidth ×ˢ Finset.range m.gridHeight).filter
    fun p => m.cellKind ⟨p.1, p.2⟩ = .undefined).card

theorem Maze.undefCount_le (m : Maze) :
    m.undefCount ≤ m.gridWidth * m.gridHeight := by
  calc m.undefCount ≤ (Finset.range m.gridWidth ×ˢ Finset.range m.gridHeight).card :=
        Finset.card_filter_le _ _
    _ = m.gridWidth * m.gridHeight := by rw [Finset.card_product]; simp

/-- If a step turns the pairwise-distinct in-grid cells of `flip` from
`Undefined` into something else and turns no cell into `Undefined`, the
count of `Undefined` cells drops by at least `flip.length`. -/
theorem Maze.undefCount_flip {m m' : Maze}
    (hgw : m'.gridWidth = m.gridWidth) (hgh : m'.gridHeight = m.gridHeight)
    (flip : List Coord) (hnd : flip.Nodup)
    (hf : ∀ e ∈ flip, m.InGrid e ∧ m.cellKind e = .undefined ∧
      m'.cellKind e ≠ .undefined)
    (hother : ∀ x : Coord, m'.cellKind x = .undefined → m.cellKind x = .undefined) :
    m'.undefCount + flip.length ≤ m.undefCount := by
  classical
  have h1 : m'.undefCount =
      ((Finset.range m.gridWidth ×ˢ Finset.range m.gridHeight).filter
        fun p => m'.cellKind ⟨p.1, p.2⟩ = .undefined).card := by
    rw [Maze.undefCount, hgw, hgh]
  have hinj : Function.Injective fun e : Coord => (e.x, e.y) := by
    intro a b hab
    cases a; cases b
    simpa [Prod.mk.injEq, Coord.mk.injEq] using hab
  have hcardF : (flip.map fun e => (e.x, e.y)).toFinset.card = flip.length := by
    rw [List.toFinset_card_of_nodup (List.Nodup.map hinj hnd), List.length_map]
  have hdisj : Disjoint
      ((Finset.range m.gridWidth ×ˢ Finset.range m.gridHeight).filter
        fun p => m'.cellKind ⟨p.1, p.2⟩ = .undefined)
      (flip.map fun e => (e.x, e.y)).toFinset := by
    rw [Finset.disjoint_left]
    intro p hp hpF
    rw [List.mem_toFinset, List.mem_map] at hpF
    obtain ⟨e, he, hep⟩ := hpF
    obtain ⟨ex, ey⟩ := e
    cases hep
    exact (hf ⟨ex, ey⟩ he).2.2 (Finset.mem_filter.1 hp).2
  have hsub : ((Finset.range m.gridWidth ×ˢ Finset.range m.gridHeight).filter
        fun p => m'.cellKind ⟨p.1, p.2⟩ = .undefined) ∪
      (flip.map fun e => (e.x, e.y)).toFinset ⊆
      (Finset.range m.gridWidth ×ˢ Finset.range m.gridHeight).filter
        fun p => m.cellKind ⟨p.1, p.2⟩ = .undefined := by
    intro p hp
    rcases Finset.mem_union.1 hp with hp | hp
    · rw [Finset.mem_filter] at hp ⊢
      exact ⟨hp.1, hother _ hp.2⟩
    · rw [List.mem_toFinset, List.mem_map] at hp
      obtain ⟨e, he, hep⟩ := hp
      obtain ⟨ex, ey⟩ := e
      cases hep
      obtain ⟨⟨hex, hey⟩, hund, -⟩ := hf ⟨ex, ey⟩ he
      rw [Finset.mem_filter, Finset.mem_product, Finset.mem_range, Finset.mem_range]
      exact ⟨⟨hex, hey⟩, hund⟩
  calc m'.undefCount + flip.length
      = (((Finset.range m.gridWidth ×ˢ Finset.range m.gridHeight).filter
          fun p => m'.cellKind ⟨p.1, p.2⟩ = .undefined) ∪
        (flip.map fun e => (e.x, e.y)).toFinset).card := by
        rw [h1, ← hcardF, Finset.card_union_of_disjoint hdisj]
    _ ≤ m.undefCount := Finset.card_le_card hsub

/-! ### Path monotonicity notions -/

/-- Every `Path` cell of `m` is still a `Path` cell of `m'`. -/
def PathPreserve (m m' : Maze) : Prop :=
  ∀ c, m.cellKind c = .path → m'.cellKind c = .path

theorem pathPreserve_refl (m : Maze) : PathPreserve m m := fun _ h => h

theorem pathPreserve_trans {m1 m2 m3 : Maze} (h1 : PathPreserve m1 m2)
    (h2 : PathPreserve m2 m3) : PathPreserve m1 m3 :=
  fun c hc => h2 c (h1 c hc)

theorem PathReach.mono {m m' : Maze} (h : PathPreserve m m') {a b : Coord}
    (hr : PathReach m a b) : PathReach m' a b :=
  Relation.ReflTransGen.mono (fun _ _ huv => ⟨huv.1, h _ huv.2.1, h _ huv.2.2⟩) hr

/-! ### Specification of `add_walls_around` -/

/-- Both grid dimensions and the cell size agree. -/
def SameGrid (m m' : Maze) : Prop :=
  m'.gridWidth = m.gridWidth ∧ m'.gridHeight = m.gridHeight ∧
    m'.pixelSize = m.pixelSize

theorem sameGrid_refl (m : Maze) : SameGrid m m := ⟨Eq.refl _, Eq.refl _, Eq.refl _⟩

theorem sameGrid_trans {m1 m2 m3 : Maze} (h1 : SameGrid m1 m2)
    (h2 : SameGrid m2 m3) : SameGrid m1 m3 :=
  ⟨h2.1.trans h1.1, h2.2.1.trans h1.2.1, h2.2.2.trans h1.2.2⟩

theorem Direction.mem_all (d : Direction) :
    d ∈ [Direction.up, Direction.down, Direction.left, Direction.right] := by
  cases d <;> simp

theorem someBind {A B : Type} (a : A) (f : A → Option B) :
    (some a >>= f) = f a := Eq.refl _

theorem Maze.addWallStep_none {m : Maze} {c : Coord} {walls : List Coord}
    {d : Direction} (hgc : m.getCoordNext c d = none) :
    m.addWallStep c walls d = some (m, walls) := by
  rw [Maze.addWallStep, hgc]

theorem Maze.addWallStep_skip {m : Maze} {c : Coord} {walls : List Coord}
    {d : Direction} {w : Coord} (hgc : m.getCoordNext c d = some w)
    (hk : m.cellKind w ≠ .undefined) :
    m.addWallStep c walls d = some (m, walls) := by
  cases hkk : m.cellKind w with
  | undefined => exact absurd hkk hk
  | wall => simp [Maze.addWallStep, hgc, hkk]
  | path => simp [Maze.addWallStep, hgc, hkk]

theorem Maze.addWallStep_expand {m : Maze} {c : Coord} {walls : List Coord}
    {d : Direction} {w : Coord} (hwf : m.WF) (hgc : m.getCoordNext c d = some w)
    (hk : m.cellKind w = .undefined) (hwin : m.InGrid w) :
    m.addWallStep c walls d = some (m.paint w m.wallColor, walls ++ [w]) := by
  simp [Maze.addWallStep, hgc, hk, m.drawWall_some hwf hwin]

/-- The fold of `addWallStep` over an arbitrary direction list: it succeeds,
appends exactly the `Undefined` neighbors of `c` (in the given directions),
paints those cells `Wall` and changes nothing else. -/
theorem Maze.addWallsFold_spec (dirs : List Direction) (m : Maze) (c : Coord)
    (walls : List Coord) (hwf : m.WF) (hc : m.InGrid c) :
    ∃ m' new,
      dirs.foldlM (fun s d => Maze.addWallStep s.1 c s.2 d) (m, walls) =
          some (m', walls ++ new) ∧
        m'.WF ∧ SameGrid m m' ∧ new.Nodup ∧ new.length ≤ dirs.length ∧
        (∀ e, e ∈ new ↔ ∃ d ∈ dirs, m.getCoordNext c d = some e ∧
          m.cellKind e = .undefined) ∧
        (∀ x, m'.cellKind x = if x ∈ new then .wall else m.cellKind x) := by
  induction dirs generalizing m walls with
  | nil =>
    exact ⟨m, [], by simp [List.foldlM_nil], hwf, sameGrid_refl m, List.nodup_nil,
      by simp, by simp, fun x => by simp⟩
  | cons d ds ih =>
    simp only [List.foldlM_cons]
    cases hgc : m.getCoordNext c d with
    | none =>
      obtain ⟨m', new, hrun, hwf', hsg, hnd, hlen, hiff, hkind⟩ := ih m walls hwf hc
      refine ⟨m', new, ?_, hwf', hsg, hnd, Nat.le_succ_of_le hlen, ?_, hkind⟩
      · rw [Maze.addWallStep_none hgc, someBind]
        exact hrun
      · intro e
        rw [hiff e]
        constructor
        · rintro ⟨d', hd', h1, h2⟩
          exact ⟨d', List.mem_cons_of_mem _ hd', h1, h2⟩
        · rintro ⟨d', hd', h1, h2⟩
          rcases List.mem_cons.1 hd' with rfl | hd'
          · rw [hgc] at h1
            exact absurd h1 (by simp)
          · exact ⟨d', hd', h1, h2⟩
    | some w =>
      by_cases hk : m.cellKind w = .undefined
      · have hwin : m.InGrid w := m.getCoordNext_inGrid hc hgc
        have hps : 1 ≤ m.pixelSize := hwf.2.2.2.2.1
        have hwf1 : (m.paint w m.wallColor).WF := m.paint_WF hwf w _
        have hc1 : (m.paint w m.wallColor).InGrid c := hc
        obtain ⟨m', new, hrun, hwf', hsg, hnd, hlen, hiff, hkind⟩ :=
          ih (m.paint w m.wallColor) (walls ++ [w]) hwf1 hc1
        have hk1self : (m.paint w m.wallColor).cellKind w = .wall :=
          m.paint_cellKind_wall hwf hwin
        have hk1other : ∀ x, x ≠ w →
            (m.paint w m.wallColor).cellKind x = m.cellKind x :=
          fun x hx => m.paint_cellKind_other hps hx _
        have hgc1 : ∀ (x : Coord) (d' : Direction),
            (m.paint w m.wallColor).getCoordNext x d' = m.getCoordNext x d' :=
          fun x d' => Maze.getCoordNext_congr x d' rfl rfl
        have hwnotnew : w ∉ new := by
          intro hwnew
          obtain ⟨d', -, -, hund⟩ := (hiff w).1 hwnew
          rw [hk1self] at hund
          exact absurd hund (by simp)
        refine ⟨m', w :: new, ?_, hwf', sameGrid_trans (sameGrid_refl _) hsg,
          List.nodup_cons.2 ⟨hwnotnew, hnd⟩, by simpa using Nat.succ_le_succ hlen,
          ?_, ?_⟩
        · rw [Maze.addWallStep_expand hwf hgc hk hwin, someBind, hrun,
            List.append_assoc]
          rfl
        · intro e
          constructor
          · intro he
            rcases List.mem_cons.1 he with rfl | he
            · exact ⟨d, List.mem_cons_self _ _, hgc, hk⟩
            · obtain ⟨d', hd', h1, h2⟩ := (hiff e).1 he
              have hew : e ≠ w := by
                intro hew
                rw [hew, hk1self] at h2
                exact absurd h2 (by simp)
              rw [hgc1] at h1
              rw [hk1other e hew] at h2
              exact ⟨d', List.mem_cons_of_mem _ hd', h1, h2⟩
          · rintro ⟨d', hd', h1, h2⟩
            by_cases hew : e = w
            · rw [hew]
              exact List.mem_cons_self _ _
            · apply List.mem_cons_of_mem
              rcases List.mem_cons.1 hd' with rfl | hd'
              · rw [hgc] at h1
                exact absurd (Option.some.inj h1).symm hew
              · refine (hiff e).2 ⟨d', hd', ?_, ?_⟩
                · rw [hgc1]
                  exact h1
                · rw [hk1other e hew]
                  exact h2
        · intro x
          rw [hkind x]
          by_cases hxnew : x ∈ new
          · rw [if_pos hxnew, if_pos (List.mem_cons_of_mem _ hxnew)]
          · rw [if_neg hxnew]
            by_cases hxw : x = w
            · rw [hxw, if_pos (List.mem_cons_self _ _)]
              exact hk1self
            · rw [if_neg (by
                intro hmem
                rcases List.mem_cons.1 hmem with h | h
                exacts [hxw h, hxnew h])]
              exact hk1other x hxw
      · obtain ⟨m', new, hrun, hwf', hsg, hnd, hlen, hiff, hkind⟩ := ih m walls hwf hc
        refine ⟨m', new, ?_, hwf', hsg, hnd, Nat.le_succ_of_le hlen, ?_, hkind⟩
        · rw [Maze.addWallStep_skip hgc hk, someBind]
          exact hrun
        · intro e
          rw [hiff e]
          constructor
          · rintro ⟨d', hd', h1, h2⟩
            exact ⟨d', List.mem_cons_of_mem _ hd', h1, h2⟩
          · rintro ⟨d', hd', h1, h2⟩
            rcases List.mem_cons.1 hd' with rfl | hd'
            · rw [hgc] at h1
              obtain rfl := Option.some.inj h1
              exact absurd h2 hk
            · exact ⟨d', hd', h1, h2⟩

/-- Specification of `Maze::add_walls_around` at a well-formed maze and an
in-grid cell `c`: it succeeds, pushes exactly the currently-`Undefined`
neighbors of `c` (each in-grid and adjacent to `c`), paints them `Wall`, and
leaves every other cell's classification unchanged. -/
theorem Maze.addWallsAround_spec (m : Maze) (c : Coord) (walls : List Coord)
    (hwf : m.WF) (hc : m.InGrid c) :
    ∃ m' new,
      m.addWallsAround c walls = some (m', walls ++ new) ∧
        m'.WF ∧ SameGrid m m' ∧ new.Nodup ∧ new.length ≤ 4 ∧
        (∀ e, e ∈ new ↔ ∃ d, m.getCoordNext c d = some e ∧
          m.cellKind e = .undefined) ∧
        (∀ e ∈ new, m.InGrid e ∧ Adjacent c e) ∧
        (∀ x, m'.cellKind x = if x ∈ new then .wall else m.cellKind x) := by
  obtain ⟨m', new, hrun, hwf', hsg, hnd, hlen, hiff, hkind⟩ :=
    Maze.addWallsFold_spec [Direction.up, Direction.down, Direction.left,
      Direction.right] m c walls hwf hc
  refine ⟨m', new, hrun, hwf', hsg, hnd, by simpa using hlen, ?_, ?_, hkind⟩
  · intro e
    rw [hiff e]
    constructor
    · rintro ⟨d, -, h1, h2⟩
      exact ⟨d, h1, h2⟩
    · rintro ⟨d, h1, h2⟩
      exact ⟨d, Direction.mem_all d, h1, h2⟩
  · intro e he
    obtain ⟨d, -, h1, -⟩ := (hiff e).1 he
    exact ⟨m.getCoordNext_inGrid hc h1, m.getCoordNext_adjacent h1⟩

/-! ### Specification of one loop iteration (`primStep`) -/

theorem Maze.InGrid_congr {m m' : Maze} (hsg : SameGrid m m') {c : Coord} :
    m'.InGrid c ↔ m.InGrid c := by
  unfold Maze.InGrid
  rw [hsg.1, hsg.2.1]

theorem Maze.primStep_none {m : Maze} {w : Coord} {d : Direction}
    {walls : List Coord} (hgc : m.getCoordNext w d = none) :
    m.primStep w d walls = some (m, walls) := by
  rw [Maze.primStep, hgc]

theorem Maze.primStep_skip {m : Maze} {w : Coord} {d : Direction}
    {walls : List Coord} {c : Coord} (hgc : m.getCoordNext w d = some c)
    (hk : m.cellKind c ≠ .undefined) :
    m.primStep w d walls = some (m, walls) := by
  cases hkk : m.cellKind c with
  | undefined => exact absurd hkk hk
  | wall => simp [Maze.primStep, hgc, hkk]
  | path => simp [Maze.primStep, hgc, hkk]

/-- The expansion branch of one loop iteration: the neighbor `c` of the
popped wall `w` is in the grid and `Undefined`, so its own `Undefined`
neighbors get painted `Wall` and enqueued, and then `c` and `w` are painted
`Path`; every other cell keeps its classification, and the number of
`Undefined` cells drops by at least `new.length + 1`. -/
theorem Maze.primStep_expand {m : Maze} {w : Coord} {d : Direction}
    {walls : List Coord} {c : Coord} (hwf : m.WF) (hw : m.InGrid w)
    (hgc : m.getCoordNext w d = some c) (hk : m.cellKind c = .undefined) :
    ∃ m' new,
      m.primStep w d walls = some (m', walls ++ new) ∧
        m'.WF ∧ SameGrid m m' ∧ new.Nodup ∧ new.length ≤ 4 ∧
        (∀ e, e ∈ new ↔ ∃ d', m.getCoordNext c d' = some e ∧
          m.cellKind e = .undefined) ∧
        (∀ e ∈ new, m.InGrid e ∧ Adjacent c e) ∧
        (∀ x, m'.cellKind x =
          if x = c ∨ x = w then .path
          else if x ∈ new then .wall
          else m.cellKind x) ∧
        m'.undefCount + new.length + 1 ≤ m.undefCount := by
  have hcin : m.InGrid c := m.getCoordNext_inGrid hw hgc
  have hcw : c ≠ w := m.getCoordNext_ne hgc
  obtain ⟨m1, new, hrun1, hwf1, hsg1, hnd, hlen, hiff, hnewg, hkind1⟩ :=
    m.addWallsAround_spec c walls hwf hcin
  have hc1 : m1.InGrid c := (Maze.InGrid_congr hsg1).2 hcin
  have hw1 : m1.InGrid w := (Maze.InGrid_congr hsg1).2 hw
  have hdp1 : m1.drawPath c = some (m1.paint c m1.pathColor) :=
    m1.drawPath_some hwf1 hc1
  have hwf2 : (m1.paint c m1.pathColor).WF := m1.paint_WF hwf1 c _
  have hw2 : (m1.paint c m1.pathColor).InGrid w := hw1
  have hdp2 : (m1.paint c m1.pathColor).drawPath w =
      some ((m1.paint c m1.pathColor).paint w (m1.paint c m1.pathColor).pathColor) :=
    (m1.paint c m1.pathColor).drawPath_some hwf2 hw2
  set m2 := m1.paint c m1.pathColor with hm2
  set m3 := m2.paint w m2.pathColor with hm3
  have hwf3 : m3.WF := m2.paint_WF hwf2 w _
  have hps1 : 1 ≤ m1.pixelSize := hwf1.2.2.2.2.1
  have hps2 : 1 ≤ m2.pixelSize := hwf2.2.2.2.2.1
  have hsg3 : SameGrid m m3 :=
    sameGrid_trans (sameGrid_trans hsg1 (sameGrid_refl m1)) (sameGrid_refl m2)
  have hrun : m.primStep w d walls = some (m3, walls ++ new) := by
    simp only [Maze.primStep, hgc, hk]
    rw [hrun1, someBind, hdp1, someBind, hdp2, someBind]
  have hkc2 : m2.cellKind c = .path := m1.paint_cellKind_path hwf1 hc1
  have hkw3 : m3.cellKind w = .path := m2.paint_cellKind_path hwf2 hw2
  have hkc3 : m3.cellKind c = .path := by
    rw [hm3, m2.paint_cellKind_other hps2 hcw]
    exact hkc2
  have hkind : ∀ x, m3.cellKind x =
      if x = c ∨ x = w then .path
      else if x ∈ new then .wall
      else m.cellKind x := by
    intro x
    by_cases hxw : x = w
    · rw [hxw, if_pos (Or.inr rfl)]
      exact hkw3
    by_cases hxc : x = c
    · rw [hxc, if_pos (Or.inl rfl)]
      exact hkc3
    rw [if_neg (by tauto), hm3, m2.paint_cellKind_other hps2 hxw, hm2,
      m1.paint_cellKind_other hps1 hxc, hkind1 x]
  refine ⟨m3, new, hrun, hwf3, hsg3, hnd, hlen, hiff, hnewg, hkind, ?_⟩
  have hflip : ∀ e ∈ c :: new, m.InGrid e ∧ m.cellKind e = .undefined ∧
      m3.cellKind e ≠ .undefined := by
    intro e he
    rcases List.mem_cons.1 he with rfl | he
    · refine ⟨hcin, hk, ?_⟩
      rw [hkc3]
      simp
    · obtain ⟨-, -, hund⟩ := (hiff e).1 he
      refine ⟨((hnewg e he).1), hund, ?_⟩
      rw [hkind e]
      by_cases hec : e = c ∨ e = w
      · rw [if_pos hec]; simp
      · rw [if_neg hec, if_pos he]; simp
  have hcnotnew : c ∉ new := by
    intro hc
    exact (Adjacent.ne ((hnewg c hc).2)) rfl
  have hother : ∀ x : Coord, m3.cellKind x = .undefined →
      m.cellKind x = .undefined := by
    intro x hx
    rw [hkind x] at hx
    by_cases h1 : x = c ∨ x = w
    · rw [if_pos h1] at hx; exact absurd hx (by simp)
    · rw [if_neg h1] at hx
      by_cases h2 : x ∈ new
      · rw [if_pos h2] at hx; exact absurd hx (by simp)
      · rwa [if_neg h2] at hx
  have := Maze.undefCount_flip hsg3.1 hsg3.2.1 (c :: new)
    (List.nodup_cons.2 ⟨hcnotnew, hnd⟩) hflip hother
  simpa [Nat.add_comm, Nat.add_assoc, Nat.add_left_comm] using this

/-! ### The loop invariant and the master loop lemma -/

/-- Invariant of the `while` loop of `randomized_prim`: the maze is
well-formed, the start cell is `Path`, every `Path` cell is reachable from
the start along `Path` cells, and every frontier entry is an in-grid cell
painted `Wall` that is adjacent to some `Path` cell; the frontier holds no
duplicates. -/
def LoopInv (m : Maze) (walls : List Coord) : Prop :=
  m.WF ∧ m.cellKind ⟨0, 0⟩ = .path ∧
    (∀ c, m.cellKind c = .path → PathReach m ⟨0, 0⟩ c) ∧
    (∀ e ∈ walls, m.InGrid e ∧ m.cellKind e = .wall ∧
      ∃ p, Adjacent e p ∧ m.cellKind p = .path) ∧
    walls.Nodup

theorem Maze.primLoop_zero (m : Maze) (walls : List Coord)
    (rnd : Nat → Nat × Nat) (k : Nat) :
    m.primLoop walls rnd k 0 = some (m, walls) := rfl

theorem Maze.primLoop_nil (m : Maze) (rnd : Nat → Nat × Nat) (k fuel : Nat) :
    m.primLoop [] rnd k (fuel + 1) = some (m, []) := rfl

theorem Maze.primLoop_cons (m : Maze) (a : Coord) (as : List Coord)
    (rnd : Nat → Nat × Nat) (k fuel : Nat) (pos : Nat)
    (hpos : pos < (a :: as).length) (hposEq : pos = (rnd k).1 % (a :: as).length) :
    m.primLoop (a :: as) rnd k (fuel + 1) =
      match m.primStep ((a :: as).get ⟨pos, hpos⟩) (Direction.sample (rnd k).2)
          (swapRemove (a :: as) pos) with
      | none => none
      | some s => s.1.primLoop s.2 rnd (k + 1) fuel := by
  subst hposEq
  rfl

/-- Master lemma about the loop: from any state satisfying the invariant the
loop succeeds, preserves the invariant, never unpaints a `Path` cell, and —
given fuel at least `walls.length + 2 * undefCount` — drains the frontier
completely. -/
theorem Maze.primLoop_spec :
    ∀ (fuel : Nat) (m : Maze) (walls : List Coord) (rnd : Nat → Nat × Nat)
      (k : Nat), LoopInv m walls →
      ∃ m' walls', m.primLoop walls rnd k fuel = some (m', walls') ∧
        LoopInv m' walls' ∧ PathPreserve m m' ∧ SameGrid m m' ∧
        (walls.length + 2 * m.undefCount ≤ fuel → walls' = []) := by
  intro fuel
  induction fuel with
  | zero =>
    intro m walls rnd k hinv
    refine ⟨m, walls, Maze.primLoop_zero m walls rnd k, hinv, pathPreserve_refl m,
      sameGrid_refl m, fun hle => ?_⟩
    have : walls.length = 0 := by omega
    exact List.length_eq_zero.1 this
  | succ fuel ih =>
    intro m walls rnd k hinv
    match walls with
    | [] =>
      exact ⟨m, [], Maze.primLoop_nil m rnd k fuel, hinv, pathPreserve_refl m,
        sameGrid_refl m, fun _ => rfl⟩
    | a :: as =>
      obtain ⟨hwf, horig, hreach, hfr, hnodup⟩ := hinv
      have hpos : (rnd k).1 % (a :: as).length < (a :: as).length :=
        Nat.mod_lt _ (Nat.succ_pos as.length)
      set pos := (rnd k).1 % (a :: as).length with hposEq
      set w := (a :: as).get ⟨pos, hpos⟩ with hwEq
      set walls' := swapRemove (a :: as) pos with hwallsEq
      set d := Direction.sample (rnd k).2 with hdEq
      have hwmem : w ∈ a :: as := List.get_mem _ _ _
      obtain ⟨hwin, hwwall, p, hadjwp, hppath⟩ := hfr w hwmem
      have hlen' : walls'.length = as.length := by
        rw [hwallsEq, swapRemove_length hpos]
        rfl
      have hsub : ∀ e ∈ walls', e ∈ a :: as :=
        fun e he => mem_of_mem_swapRemove hpos he
      have hnd' : walls'.Nodup := swapRemove_nodup hpos hnodup
      have hwnot : w ∉ walls' := get_notMem_swapRemove hpos hnodup
      have hloopEq := Maze.primLoop_cons m a as rnd k fuel pos hpos hposEq
      cases hgc : m.getCoordNext w d with
      | none =>
        have hinv' : LoopInv m walls' :=
          ⟨hwf, horig, hreach, fun e he => hfr e (hsub e he), hnd'⟩
        obtain ⟨m', walls'', hrun, hinv'', hpp, hsg, hcond⟩ :=
          ih m walls' rnd (k + 1) hinv'
        refine ⟨m', walls'', ?_, hinv'', hpp, hsg, ?_⟩
        · rw [hloopEq, Maze.primStep_none hgc]
          exact hrun
        · intro hle
          apply hcond
          have h1 : (a :: as).length = as.length + 1 := rfl
          omega
      | some c =>
        by_cases hk : m.cellKind c = .undefined
        · obtain ⟨m3, new, hstep, hwf3, hsg3, hndnew, hlennew, hiff, hnewg,
            hkind3, hcount⟩ := Maze.primStep_expand hwf hwin hgc hk
          have hcw : c ≠ w := m.getCoordNext_ne hgc
          have hpp3 : PathPreserve m m3 := by
            intro x hx
            have hxnew : x ∉ new := by
              intro h2
              obtain ⟨-, -, hund⟩ := (hiff x).1 h2
              rw [hx] at hund
              exact absurd hund (by simp)
            rw [hkind3 x]
            by_cases h1 : x = c ∨ x = w
            · rw [if_pos h1]
            · rw [if_neg h1, if_neg hxnew]
              exact hx
          have hkw3 : m3.cellKind w = .path := by
            rw [hkind3 w, if_pos (Or.inr rfl)]
          have hkc3 : m3.cellKind c = .path := by
            rw [hkind3 c, if_pos (Or.inl rfl)]
          have hreachw : PathReach m3 ⟨0, 0⟩ w := by
            have h1 : PathReach m3 ⟨0, 0⟩ p :=
              PathReach.mono hpp3 (hreach p hppath)
            exact Relation.ReflTransGen.tail h1
              ⟨hadjwp.symm, hpp3 p hppath, hkw3⟩
          have hreachc : PathReach m3 ⟨0, 0⟩ c :=
            Relation.ReflTransGen.tail hreachw
              ⟨m.getCoordNext_adjacent hgc, hkw3, hkc3⟩
          have hreach3 : ∀ x, m3.cellKind x = .path → PathReach m3 ⟨0, 0⟩ x := by
            intro x hx
            rw [hkind3 x] at hx
            by_cases h1 : x = c ∨ x = w
            · rcases h1 with rfl | rfl
              exacts [hreachc, hreachw]
            · rw [if_neg h1] at hx
              by_cases h2 : x ∈ new
              · rw [if_pos h2] at hx
                exact absurd hx (by simp)
              · rw [if_neg h2] at hx
                exact PathReach.mono hpp3 (hreach x hx)
          have hfr3 : ∀ e ∈ walls' ++ new, m3.InGrid e ∧ m3.cellKind e = .wall ∧
              ∃ q, Adjacent e q ∧ m3.cellKind q = .path := by
            intro e he
            rcases List.mem_append.1 he with he | he
            · obtain ⟨hein, hewall, q, hadj, hq⟩ := hfr e (hsub e he)
              have hec : e ≠ c := by
                intro h
                rw [h, hk] at hewall
                exact absurd hewall (by simp)
              have hew : e ≠ w := fun h => hwnot (h ▸ he)
              have henew : e ∉ new := by
                intro h2
                obtain ⟨-, -, hund⟩ := (hiff e).1 h2
                rw [hewall] at hund
                exact absurd hund (by simp)
              refine ⟨(Maze.InGrid_congr hsg3).2 hein, ?_, q, hadj, hpp3 q hq⟩
              rw [hkind3 e, if_neg (by tauto), if_neg henew]
              exact hewall
            · obtain ⟨hein, hadj⟩ := hnewg e he
              have heneqc : e ≠ c := Adjacent.ne hadj
              obtain ⟨-, -, hund⟩ := (hiff e).1 he
              have hew : e ≠ w := by
                intro h
                rw [h, hwwall] at hund
                exact absurd hund (by simp)
              refine ⟨(Maze.InGrid_congr hsg3).2 hein, ?_, c, hadj.symm, hkc3⟩
              rw [hkind3 e, if_neg (by tauto), if_pos he]
          have hnd3 : (walls' ++ new).Nodup := by
            rw [List.nodup_append]
            refine ⟨hnd', hndnew, ?_⟩
            intro e he1 he2
            obtain ⟨-, -, hund⟩ := (hiff e).1 he2
            obtain ⟨-, hewall, -⟩ := hfr e (hsub e he1)
            rw [hewall] at hund
            exact absurd hund (by simp)
          have hinv3 : LoopInv m3 (walls' ++ new) :=
            ⟨hwf3, hpp3 _ horig, hreach3, hfr3, hnd3⟩
          obtain ⟨m', walls'', hrun, hinv'', hpp, hsg, hcond⟩ :=
            ih m3 (walls' ++ new) rnd (k + 1) hinv3
          refine ⟨m', walls'', ?_, hinv'', pathPreserve_trans hpp3 hpp,
            sameGrid_trans hsg3 hsg, ?_⟩
          · rw [hloopEq, hstep]
            exact hrun
          · intro hle
            apply hcond
            have h1 : (a :: as).length = as.length + 1 := rfl
            have h2 : (walls' ++ new).length = walls'.length + new.length :=
              List.length_append _ _
            omega
        · have hinv' : LoopInv m walls' :=
            ⟨hwf, horig, hreach, fun e he => hfr e (hsub e he), hnd'⟩
          obtain ⟨m', walls'', hrun, hinv'', hpp, hsg, hcond⟩ :=
            ih m walls' rnd (k + 1) hinv'
          refine ⟨m', walls'', ?_, hinv'', hpp, hsg, ?_⟩
          · rw [hloopEq, Maze.primStep_skip hgc hk]
            exact hrun
          · intro hle
            apply hcond
            have h1 : (a :: as).length = as.length + 1 := rfl
            omega

/-! ### Initialization: facts about `Maze.new` and `primInit` -/

theorem Maze.new_gridWidth (W H ps : Nat) : (Maze.new W H ps).gridWidth = W / ps := rfl

theorem Maze.new_gridHeight (W H ps : Nat) : (Maze.new W H ps).gridHeight = H / ps := rfl

theorem Maze.new_pixelSize (W H ps : Nat) : (Maze.new W H ps).pixelSize = ps := rfl

theorem Maze.new_img_width (W H ps : Nat) : (Maze.new W H ps).img.width = W := by
  show (Img.setMany (Img.setMany ⟨W, H, fun _ _ => blackRGB⟩ (borderCols W H ps)
    wallRGB) (borderRows W H ps) wallRGB).width = W
  rw [Img.setMany_width, Img.setMany_width]

theorem Maze.new_img_height (W H ps : Nat) : (Maze.new W H ps).img.height = H := by
  show (Img.setMany (Img.setMany ⟨W, H, fun _ _ => blackRGB⟩ (borderCols W H ps)
    wallRGB) (borderRows W H ps) wallRGB).height = H
  rw [Img.setMany_height, Img.setMany_height]

theorem Maze.new_WF {W H ps : Nat} (hps : 1 ≤ ps) : (Maze.new W H ps).WF :=
  ⟨(Maze.new_img_width W H ps).symm, (Maze.new_img_height W H ps).symm,
    rfl, rfl, hps, rfl, rfl⟩

/-- The border strips painted by `Maze::new` never touch the pixels strictly
inside the whole-cell region. -/
theorem Maze.new_interior_black {W H ps : Nat} {a b : Nat}
    (ha : a < W / ps * ps) (hb : b < H / ps * ps) :
    (Maze.new W H ps).img.data a b = blackRGB := by
  show (Img.setMany (Img.setMany ⟨W, H, fun _ _ => blackRGB⟩ (borderCols W H ps)
    wallRGB) (borderRows W H ps) wallRGB).data a b = blackRGB
  rw [Img.setMany_data, if_neg, Img.setMany_data, if_neg]
  · intro hmem
    rw [borderCols] at hmem
    simp only [List.mem_flatMap, List.mem_map, List.mem_range] at hmem
    obtain ⟨i, -, y, -, heq⟩ := hmem
    simp only [Prod.mk.injEq] at heq
    omega
  · intro hmem
    rw [borderRows] at hmem
    simp only [List.mem_flatMap, List.mem_map, List.mem_range] at hmem
    obtain ⟨i, -, x, -, heq⟩ := hmem
    simp only [Prod.mk.injEq] at heq
    omega

theorem Maze.cellKind_out {m : Maze} {c : Coord} (h : ¬m.InGrid c) :
    m.cellKind c = .undefined := by
  rw [Maze.cellKind, if_pos]
  unfold Maze.InGrid at h
  omega

/-- Right after construction, every in-grid cell is still `Undefined` (its
origin pixel is raster-default black, which is neither sentinel color). -/
theorem Maze.new_cellKind {W H ps : Nat} (hps : 1 ≤ ps) {c : Coord}
    (hc : (Maze.new W H ps).InGrid c) :
    (Maze.new W H ps).cellKind c = .undefined := by
  obtain ⟨hx, hy⟩ := hc
  rw [Maze.new_gridWidth] at hx
  rw [Maze.new_gridHeight] at hy
  have ha : c.x * ps < W / ps * ps := (Nat.mul_lt_mul_right (by omega)).2 hx
  have hb : c.y * ps < H / ps * ps := (Nat.mul_lt_mul_right (by omega)).2 hy
  rw [Maze.cellKind]
  rw [if_neg (by
    rw [Maze.new_gridWidth, Maze.new_gridHeight]
    omega)]
  rw [show (Maze.new W H ps).pixelSize = ps from rfl]
  rw [Maze.new_interior_black ha hb]
  rw [show (Maze.new W H ps).wallColor = wallRGB from rfl]
  rw [show (Maze.new W H ps).pathColor = pathRGB from rfl]
  decide

theorem Maze.primInit_eq {m : Maze} {m1 : Maze}
    (h : m.drawPath ⟨0, 0⟩ = some m1) :
    m.primInit = m1.addWallsAround ⟨0, 0⟩ [] := by
  rw [Maze.primInit, h, someBind]

theorem Maze.randomizedPrim_eq {m : Maze} (rnd : Nat → Nat × Nat) (fuel : Nat)
    {m2 : Maze} {walls0 : List Coord} (h : m.primInit = some (m2, walls0)) :
    m.randomizedPrim rnd fuel = m2.primLoop walls0 rnd 0 fuel := by
  rw [Maze.randomizedPrim, h, someBind]

/-- After `draw_path(start)` and `add_walls_around(start)` the loop invariant
holds, with at most 4 frontier entries and at most `grid_width*grid_height`
undefined cells. -/
theorem Maze.primInit_spec {W H ps : Nat} (hps : 1 ≤ ps) (hgw : 1 ≤ W / ps)
    (hgh : 1 ≤ H / ps) :
    ∃ m2 walls0, (Maze.new W H ps).primInit = some (m2, walls0) ∧
      LoopInv m2 walls0 ∧ SameGrid (Maze.new W H ps) m2 ∧
      walls0.length ≤ 4 ∧ m2.undefCount ≤ W / ps * (H / ps) := by
  have hwf0 : (Maze.new W H ps).WF := Maze.new_WF hps
  have horigin : (Maze.new W H ps).InGrid ⟨0, 0⟩ := by
    unfold Maze.InGrid
    rw [Maze.new_gridWidth, Maze.new_gridHeight]
    exact ⟨hgw, hgh⟩
  have hdp : (Maze.new W H ps).drawPath ⟨0, 0⟩ =
      some ((Maze.new W H ps).paint ⟨0, 0⟩ (Maze.new W H ps).pathColor) :=
    (Maze.new W H ps).drawPath_some hwf0 horigin
  set m0 := Maze.new W H ps with hm0
  set m1 := m0.paint ⟨0, 0⟩ m0.pathColor with hm1
  have hwf1 : m1.WF := m0.paint_WF hwf0 _ _
  have hps1 : 1 ≤ m0.pixelSize := hwf0.2.2.2.2.1
  have horig1 : m1.cellKind ⟨0, 0⟩ = .path := m0.paint_cellKind_path hwf0 horigin
  have horig1' : m1.InGrid ⟨0, 0⟩ := horigin
  obtain ⟨m2, new, hrun, hwf2, hsg2, hnd, hlen, hiff, hnewg, hkind⟩ :=
    m1.addWallsAround_spec ⟨0, 0⟩ [] hwf1 horig1'
  have hsg1 : SameGrid m0 m1 := sameGrid_refl _
  have hkind1 : ∀ x, x ≠ ⟨0, 0⟩ → m1.cellKind x = m0.cellKind x :=
    fun x hx => m0.paint_cellKind_other hps1 hx _
  have hk0 : ∀ x : Coord, m0.cellKind x ≠ .path := by
    intro x
    by_cases hxin : m0.InGrid x
    · rw [hm0, Maze.new_cellKind hps hxin]
      simp
    · rw [Maze.cellKind_out hxin]
      simp
  have horig2 : m2.cellKind ⟨0, 0⟩ = .path := by
    have hnotnew : (⟨0, 0⟩ : Coord) ∉ new := by
      intro hmem
      obtain ⟨-, -, hund⟩ := (hiff _).1 hmem
      rw [horig1] at hund
      exact absurd hund (by simp)
    rw [hkind _, if_neg hnotnew]
    exact horig1
  have hinv : LoopInv m2 new := by
    refine ⟨hwf2, horig2, ?_, ?_, hnd⟩
    · intro x hx
      have hxnotnew : x ∉ new := by
        intro hmem
        rw [hkind x, if_pos hmem] at hx
        exact absurd hx (by simp)
      rw [hkind x, if_neg hxnotnew] at hx
      by_cases hxo : x = ⟨0, 0⟩
      · rw [hxo]
        exact Relation.ReflTransGen.refl
      · rw [hkind1 x hxo] at hx
        exact absurd hx (hk0 x)
    · intro e he
      obtain ⟨hein, hadj⟩ := hnewg e he
      refine ⟨(Maze.InGrid_congr hsg2).2 hein, ?_, ⟨0, 0⟩, hadj.symm, horig2⟩
      rw [hkind e, if_pos he]
  refine ⟨m2, new, ?_, hinv, sameGrid_trans hsg1 hsg2, by simpa using hlen, ?_⟩
  · rw [Maze.primInit_eq hdp]
    simpa using hrun
  · calc m2.undefCount ≤ m2.gridWidth * m2.gridHeight := m2.undefCount_le
      _ = W / ps * (H / ps) := by
        have h1 : m2.gridWidth = m0.gridWidth := (sameGrid_trans hsg1 hsg2).1
        have h2 : m2.gridHeight = m0.gridHeight := (sameGrid_trans hsg1 hsg2).2.1
        rw [h1, h2, hm0, Maze.new_gridWidth, Maze.new_gridHeight]

/-- Sufficient fuel for a complete run on a `W × H` raster with cell size
`ps`: the initial frontier has at most 4 entries and each unit of
`2 * undefCount` pays for the frontier growth. -/
def primFuel (W H ps : Nat) : Nat :=
  4 + 2 * (W / ps * (H / ps))

/-- Full specification of `randomized_prim` on a well-formed nonempty grid:
it succeeds, the final state satisfies the invariant, and with fuel at least
`primFuel` the frontier is completely drained. -/
theorem Maze.randomizedPrim_spec {W H ps : Nat} (hps : 1 ≤ ps)
    (hgw : 1 ≤ W / ps) (hgh : 1 ≤ H / ps) (rnd : Nat → Nat × Nat) (fuel : Nat) :
    ∃ m' walls', (Maze.new W H ps).randomizedPrim rnd fuel = some (m', walls') ∧
      LoopInv m' walls' ∧ SameGrid (Maze.new W H ps) m' ∧
      (primFuel W H ps ≤ fuel → walls' = []) := by
  obtain ⟨m2, walls0, hinit, hinv, hsg, hlen, hcnt⟩ := Maze.primInit_spec hps hgw hgh
  obtain ⟨m', walls', hrun, hinv', hpp, hsg', hcond⟩ :=
    Maze.primLoop_spec fuel m2 walls0 rnd 0 hinv
  refine ⟨m', walls', ?_, hinv', sameGrid_trans hsg hsg', fun hle => hcond ?_⟩
  · rw [Maze.randomizedPrim_eq rnd fuel hinit]
    exact hrun
  · unfold primFuel at hle
    omega

theorem Maze.drawPath_none {m : Maze} {c : Coord}
    (hex : ∃ q ∈ m.blockPixels c, ¬(q.1 < m.img.width ∧ q.2 < m.img.height)) :
    m.drawPath c = none := by
  rw [Maze.drawPath_eq, if_neg]
  intro hall
  obtain ⟨q, hq, hnq⟩ := hex
  exact hnq (hall q hq)

/-- On a grid degenerate in either dimension (`grid_width = 0` or
`grid_height = 0`, i.e. the raster is narrower or shorter than one cell),
the very first `draw_path` of `randomized_prim` hits an out-of-bounds
`put_pixel` and the whole run fails. -/
theorem Maze.randomizedPrim_degenerate {W H ps : Nat} (hps : 1 ≤ ps)
    (hdeg : W / ps = 0 ∨ H / ps = 0) (rnd : Nat → Nat × Nat) (fuel : Nat) :
    (Maze.new W H ps).randomizedPrim rnd fuel = none := by
  have hdp : (Maze.new W H ps).drawPath ⟨0, 0⟩ = none := by
    apply Maze.drawPath_none
    rcases hdeg with h | h
    · have hW : W < ps := (Nat.div_eq_zero_iff (by omega)).1 h
      refine ⟨(ps - 1, 0), ?_, ?_⟩
      · rw [Maze.mem_blockPixels]
        rw [Maze.new_pixelSize]
        dsimp only
        omega
      · rw [Maze.new_img_width]
        dsimp only
        intro hcon
        omega
    · have hH : H < ps := (Nat.div_eq_zero_iff (by omega)).1 h
      refine ⟨(0, ps - 1), ?_, ?_⟩
      · rw [Maze.mem_blockPixels]
        rw [Maze.new_pixelSize]
        dsimp only
        omega
      · rw [Maze.new_img_height]
        dsimp only
        intro hcon
        omega
  rw [Maze.randomizedPrim, Maze.primInit, hdp]
  rfl

/-! ### Run continuation and frontier distinctness -/

theorem Maze.primLoop_nil_any (m : Maze) (rnd : Nat → Nat × Nat) (k : Nat) :
    ∀ fuel, m.primLoop [] rnd k fuel = some (m, []) := by
  intro fuel
  cases fuel with
  | zero => rfl
  | succ f => rfl

/-- Splitting a run: running for `f1 + f2` iterations is running for `f1`
and then continuing from the reached state (with the random oracle advanced
by `f1`). -/
theorem Maze.primLoop_add :
    ∀ (f1 : Nat) (m : Maze) (walls : List Coord) (rnd : Nat → Nat × Nat)
      (k f2 : Nat),
      m.primLoop walls rnd k (f1 + f2) =
        match m.primLoop walls rnd k f1 with
        | none => none
        | some s => s.1.primLoop s.2 rnd (k + f1) f2 := by
  intro f1
  induction f1 with
  | zero =>
    intro m walls rnd k f2
    rw [Nat.zero_add, Maze.primLoop_zero]
    rfl
  | succ f1 ihf =>
    intro m walls rnd k f2
    match walls with
    | [] =>
      rw [Maze.primLoop_nil_any m rnd k (f1 + 1 + f2),
        Maze.primLoop_nil_any m rnd k (f1 + 1)]
      exact (Maze.primLoop_nil_any m rnd (k + (f1 + 1)) f2).symm
    | a :: as =>
      have hpos : (rnd k).1 % (a :: as).length < (a :: as).length :=
        Nat.mod_lt _ (Nat.succ_pos as.length)
      have hL := Maze.primLoop_cons m a as rnd k (f1 + f2)
        ((rnd k).1 % (a :: as).length) hpos rfl
      have hR := Maze.primLoop_cons m a as rnd k f1
        ((rnd k).1 % (a :: as).length) hpos rfl
      rw [show f1 + 1 + f2 = (f1 + f2) + 1 from by omega, hL, hR]
      cases hstep : m.primStep ((a :: as).get ⟨(rnd k).1 % (a :: as).length, hpos⟩)
          (Direction.sample (rnd k).2)
          (swapRemove (a :: as) ((rnd k).1 % (a :: as).length)) with
      | none => rfl
      | some s =>
        show s.1.primLoop s.2 rnd (k + 1) (f1 + f2) = _
        rw [ihf s.1 s.2 rnd (k + 1) f2,
          show k + 1 + f1 = k + (f1 + 1) from by omega]

/-- Every state reachable during a run of `randomized_prim` has a
duplicate-free frontier: a cell is pushed only while `Undefined` and is
painted `Wall` in the same step, so it can never be pushed again. -/
theorem Maze.randomizedPrim_nodup {W H ps : Nat} (hps : 1 ≤ ps)
    {rnd : Nat → Nat × Nat} {fuel : Nat} {m' : Maze} {walls' : List Coord}
    (h : (Maze.new W H ps).randomizedPrim rnd fuel = some (m', walls')) :
    walls'.Nodup := by
  by_cases hdeg : W / ps = 0 ∨ H / ps = 0
  · rw [Maze.randomizedPrim_degenerate hps hdeg rnd fuel] at h
    exact absurd h (by simp)
  · push_neg at hdeg
    obtain ⟨m'', walls'', hrun, hinv, -, -⟩ :=
      @Maze.randomizedPrim_spec W H ps hps (Nat.one_le_iff_ne_zero.2 hdeg.1)
        (Nat.one_le_iff_ne_zero.2 hdeg.2) rnd fuel
    rw [hrun] at h
    simp only [Option.some.injEq, Prod.mk.injEq] at h
    obtain ⟨-, h2⟩ := h
    rw [← h2]
    exact hinv.2.2.2.2

/-! ### Claim theorems -/

/-- Small fixed maze used by the witnesses: an 8-by-8 raster with 4-pixel
cells (a 2-by-2 grid) whose top-left cell block is already path-colored and
whose remaining pixels are raster-default black. -/
def mazeWit : Maze :=
  { img := ⟨8, 8, fun x y => if x < 4 ∧ y < 4 then pathRGB else blackRGB⟩
    pixelSize := 4
    width := 8
    height := 8
    gridWidth := 2
    gridHeight := 2
    pathColor := pathRGB
    wallColor := wallRGB }

/-- Fixed random oracle used by the witnesses. -/
def rndWit : Nat → Nat × Nat := fun _ => (0, 0)

/-- C6: `cell_kind` returns `Undefined` for a coordinate outside
`[0, grid_width) × [0, grid_height)`; otherwise it samples the raster pixel
at the cell origin `(x*cell_size, y*cell_size)` and returns `Wall` for the
wall sentinel `(7,54,66)`, `Path` for the path sentinel `(253,246,227)`, and
`Undefined` for any other color. -/
theorem claim6_cellKind (m : Maze) (hw : m.wallColor = (7, 54, 66))
    (hp : m.pathColor = (253, 246, 227)) (c : Coord) :
    m.cellKind c =
      if c.x ≥ m.gridWidth ∨ c.y ≥ m.gridHeight then .undefined
      else if m.img.data (c.x * m.pixelSize) (c.y * m.pixelSize) = (7, 54, 66)
        then .wall
      else if m.img.data (c.x * m.pixelSize) (c.y * m.pixelSize) = (253, 246, 227)
        then .path
      else .undefined := by
  rw [Maze.cellKind, hw, hp]

/-- Witness for C6 at the concrete maze `mazeWit` and the in-grid
coordinate `(0,0)` (whose origin pixel is path-colored). -/
theorem claim6_witness :
    mazeWit.wallColor = (7, 54, 66) ∧ mazeWit.pathColor = (253, 246, 227) ∧
      mazeWit.cellKind ⟨0, 0⟩ =
        if (0 : Nat) ≥ mazeWit.gridWidth ∨ (0 : Nat) ≥ mazeWit.gridHeight
          then .undefined
        else if mazeWit.img.data (0 * mazeWit.pixelSize) (0 * mazeWit.pixelSize) =
            (7, 54, 66) then .wall
        else if mazeWit.img.data (0 * mazeWit.pixelSize) (0 * mazeWit.pixelSize) =
            (253, 246, 227) then .path
        else .undefined :=
  ⟨by decide, by decide, claim6_cellKind mazeWit (by decide) (by decide) ⟨0, 0⟩⟩

/-- C7: for an in-grid coordinate, `get_coord_next` returns `None` exactly
at the boundary of the respective direction (`y = 0` for `Up`, `x = 0` for
`Left`, `y = grid_height - 1` for `Down`, `x = grid_width - 1` for `Right`)
and otherwise the coordinate shifted one cell in that direction.  (The
function is a pure function of the maze dimensions and the coordinate.) -/
theorem claim7_neighbor (m : Maze) (c : Coord) (d : Direction)
    (hx : c.x < m.gridWidth) (hy : c.y < m.gridHeight) :
    m.getCoordNext c d =
      match d with
      | .up => if c.y = 0 then none else some ⟨c.x, c.y - 1⟩
      | .down => if c.y = m.gridHeight - 1 then none else some ⟨c.x, c.y + 1⟩
      | .left => if c.x = 0 then none else some ⟨c.x - 1, c.y⟩
      | .right => if c.x = m.gridWidth - 1 then none else some ⟨c.x + 1, c.y⟩ := by
  cases d with
  | up => rfl
  | down =>
    show m.getCoordDown c =
      if c.y = m.gridHeight - 1 then none else some ⟨c.x, c.y + 1⟩
    rw [Maze.getCoordDown]
    by_cases h : c.y ≥ m.gridHeight - 1
    · rw [if_pos h, if_pos (by omega)]
    · rw [if_neg h, if_neg (by omega)]
  | left => rfl
  | right =>
    show m.getCoordRight c =
      if c.x = m.gridWidth - 1 then none else some ⟨c.x + 1, c.y⟩
    rw [Maze.getCoordRight]
    by_cases h : c.x ≥ m.gridWidth - 1
    · rw [if_pos h, if_pos (by omega)]
    · rw [if_neg h, if_neg (by omega)]

/-- Witness for C7 at `mazeWit`, coordinate `(0,0)`, direction `Down`. -/
theorem claim7_witness :
    (0 : Nat) < mazeWit.gridWidth ∧ (0 : Nat) < mazeWit.gridHeight ∧
      mazeWit.getCoordNext ⟨0, 0⟩ Direction.down =
        (if (0 : Nat) = mazeWit.gridHeight - 1 then none
         else some ⟨0, 0 + 1⟩) :=
  ⟨by decide, by decide,
    claim7_neighbor mazeWit ⟨0, 0⟩ Direction.down (by decide) (by decide)⟩

/-- C8: for `width = 13`, `height = 7`, `cell_size = 4` (so `grid_width = 3`
with 1 pixel of width remainder and `grid_height = 1` with 3 pixels of
height remainder), immediately after construction — before any generation
step, and independently of randomness, which `Maze::new` never consumes —
every pixel of the rightmost 1-pixel column (`x = 12`) and of the bottom 3
pixel rows (`y ∈ {4,5,6}`) is the wall color. -/
theorem claim8_boundary :
    ∀ x, x < 13 → ∀ y, y < 7 → (x = 12 ∨ 4 ≤ y) →
      (Maze.new 13 7 4).img.data x y = wallRGB := by
  decide

/-- Witness for C8 at the corner pixel `(12, 6)`. -/
theorem claim8_witness :
    (12 : Nat) < 13 ∧ (6 : Nat) < 7 ∧ ((12 : Nat) = 12 ∨ (4 : Nat) ≤ 6) ∧
      (Maze.new 13 7 4).img.data 12 6 = wallRGB :=
  ⟨by decide, by decide, Or.inl rfl,
    claim8_boundary 12 (by decide) 6 (by decide) (Or.inl rfl)⟩

/-- C9: `Maze::save` binds the `Result` of the raster write to `_` and
drops it: it returns normally whatever the write outcome is, the outcome
does not influence anything, and the maze (raster included) is untouched. -/
theorem claim9_save_swallows : ∀ (m : Maze) (r r' : Except String Unit),
    Maze.save m r = Maze.save m r' ∧ Maze.save m r = (m, ()) :=
  fun _ _ _ => ⟨rfl, rfl⟩

/-- C1: for every grid with `grid_width ≥ 1`, `grid_height ≥ 1` and cell
size `≥ 1` and every random oracle, a completed run of `randomized_prim`
(fuel at least `primFuel`, which drains the frontier) leaves the start cell
`(0,0)` classified `Path`, and every `Path`-classified cell is reachable
from `(0,0)` by steps between 4-adjacent `Path` cells. -/
theorem claim1_connected (W H ps : Nat) (rnd : Nat → Nat × Nat) (fuel : Nat)
    (hps : 1 ≤ ps) (hgw : 1 ≤ W / ps) (hgh : 1 ≤ H / ps)
    (hfuel : primFuel W H ps ≤ fuel) :
    ∃ m', (Maze.new W H ps).randomizedPrim rnd fuel = some (m', []) ∧
      m'.cellKind ⟨0, 0⟩ = .path ∧
      ∀ c, m'.cellKind c = .path → PathReach m' ⟨0, 0⟩ c := by
  obtain ⟨m', walls', hrun, hinv, -, hcond⟩ :=
    Maze.randomizedPrim_spec hps hgw hgh rnd fuel
  obtain rfl : walls' = [] := hcond hfuel
  exact ⟨m', hrun, hinv.2.1, hinv.2.2.1⟩

/-- Witness for C1 on an 8-by-8 raster with 4-pixel cells (2-by-2 grid). -/
theorem claim1_witness :
    (1 ≤ 4 ∧ 1 ≤ 8 / 4 ∧ primFuel 8 8 4 ≤ 40) ∧
      ∃ m', (Maze.new 8 8 4).randomizedPrim rndWit 40 = some (m', []) ∧
        m'.cellKind ⟨0, 0⟩ = .path ∧
        ∀ c, m'.cellKind c = .path → PathReach m' ⟨0, 0⟩ c :=
  ⟨⟨by decide, by decide, by decide⟩,
    claim1_connected 8 8 4 rndWit 40 (by decide) (by decide) (by decide)
      (by decide)⟩

/-- C2: one iteration of the generation loop, after the wall `w` has been
popped and a direction sampled.  If the neighbor exists and is `Undefined`,
that neighbor's own in-bounds `Undefined` neighbors are painted `Wall` and
appended to the frontier and both the neighbor and `w` are painted `Path`;
if the step leaves the grid, or the neighbor is already `Wall` or `Path`,
the maze and the frontier are returned untouched, so `w` keeps whatever
paint it had. -/
theorem claim2_step_cases (m : Maze) (w : Coord) (d : Direction)
    (walls : List Coord) (hwf : m.WF) (hw : m.InGrid w) :
    (m.getCoordNext w d = none → m.primStep w d walls = some (m, walls)) ∧
    (∀ c, m.getCoordNext w d = some c → m.cellKind c ≠ .undefined →
      m.primStep w d walls = some (m, walls)) ∧
    (∀ c, m.getCoordNext w d = some c → m.cellKind c = .undefined →
      ∃ m' new, m.primStep w d walls = some (m', walls ++ new) ∧
        (∀ e, e ∈ new ↔ ∃ d', m.getCoordNext c d' = some e ∧
          m.cellKind e = .undefined) ∧
        (∀ e ∈ new, m.InGrid e) ∧
        (∀ x, m'.cellKind x =
          if x = c ∨ x = w then .path
          else if x ∈ new then .wall
          else m.cellKind x)) := by
  refine ⟨fun h => Maze.primStep_none h,
    fun c h1 h2 => Maze.primStep_skip h1 h2, ?_⟩
  intro c h1 h2
  obtain ⟨m', new, hstep, -, -, -, -, hiff, hnewg, hkind, -⟩ :=
    Maze.primStep_expand hwf hw h1 h2
  exact ⟨m', new, hstep, hiff, fun e he => (hnewg e he).1, hkind⟩

/-- Witness for C2 at `mazeWit`: popping `w = (0,0)` with direction `Down`
hits the `Undefined` neighbor `(0,1)` and expands. -/
theorem claim2_witness :
    (mazeWit.WF ∧ mazeWit.InGrid ⟨0, 0⟩ ∧
      mazeWit.getCoordNext ⟨0, 0⟩ Direction.down = some ⟨0, 1⟩ ∧
      mazeWit.cellKind ⟨0, 1⟩ = .undefined) ∧
      ∃ m' new, mazeWit.primStep ⟨0, 0⟩ Direction.down [] = some (m', [] ++ new) ∧
        (∀ e, e ∈ new ↔ ∃ d', mazeWit.getCoordNext ⟨0, 1⟩ d' = some e ∧
          mazeWit.cellKind e = .undefined) ∧
        (∀ e ∈ new, mazeWit.InGrid e) ∧
        (∀ x, m'.cellKind x =
          if x = ⟨0, 1⟩ ∨ x = ⟨0, 0⟩ then .path
          else if x ∈ new then .wall
          else mazeWit.cellKind x) :=
  ⟨⟨by decide, by decide, by decide, by decide⟩,
    (claim2_step_cases mazeWit ⟨0, 0⟩ Direction.down [] (by decide)
      (by decide)).2.2 ⟨0, 1⟩ (by decide) (by decide)⟩

/-- C3: termination.  (i) Every iteration of the loop removes exactly one
element from the frontier (a `swap_remove`, shrinking it by one) and then
appends at most 4 new coordinates; (ii) at every point of a run each
coordinate occurs at most once in the frontier, so no coordinate is ever
re-appended while pending (the frontier is duplicate-free); (iii) with fuel
at least `primFuel`, the run ends with the frontier sequence empty. -/
theorem claim3_termination :
    (∀ (m : Maze) (a : Coord) (as : List Coord) (rnd : Nat → Nat × Nat)
      (k fuel : Nat), m.WF → (∀ e ∈ a :: as, m.InGrid e) →
      ∃ (pos : Nat) (hpos : pos < (a :: as).length) (m' : Maze)
        (new : List Coord),
        m.primLoop (a :: as) rnd k (fuel + 1) =
          m'.primLoop (swapRemove (a :: as) pos ++ new) rnd (k + 1) fuel ∧
        (swapRemove (a :: as) pos).length = (a :: as).length - 1 ∧
        new.length ≤ 4) ∧
    (∀ (W H ps : Nat) (rnd : Nat → Nat × Nat) (fuel : Nat) (c : Coord),
      1 ≤ ps →
      ((Maze.new W H ps).randomizedPrim rnd fuel).elim True
        (fun s => s.2.count c ≤ 1)) ∧
    (∀ (W H ps : Nat) (rnd : Nat → Nat × Nat) (fuel : Nat),
      1 ≤ ps → 1 ≤ W / ps → 1 ≤ H / ps → primFuel W H ps ≤ fuel →
      ∃ m', (Maze.new W H ps).randomizedPrim rnd fuel = some (m', [])) := by
  refine ⟨?_, ?_, ?_⟩
  · intro m a as rnd k fuel hwf hall
    have hpos : (rnd k).1 % (a :: as).length < (a :: as).length :=
      Nat.mod_lt _ (Nat.succ_pos as.length)
    have hwin : m.InGrid ((a :: as).get ⟨(rnd k).1 % (a :: as).length, hpos⟩) :=
      hall _ (List.get_mem _ _ _)
    have hloopEq := Maze.primLoop_cons m a as rnd k fuel
      ((rnd k).1 % (a :: as).length) hpos rfl
    cases hgc : m.getCoordNext ((a :: as).get ⟨(rnd k).1 % (a :: as).length, hpos⟩)
        (Direction.sample (rnd k).2) with
    | none =>
      refine ⟨_, hpos, m, [], ?_, swapRemove_length hpos, by simp⟩
      rw [List.append_nil, hloopEq, Maze.primStep_none hgc]
    | some c =>
      by_cases hk : m.cellKind c = .undefined
      · obtain ⟨m3, new, hstep, -, -, -, hlennew, -, -, -, -⟩ :=
          Maze.primStep_expand hwf hwin hgc hk
        refine ⟨_, hpos, m3, new, ?_, swapRemove_length hpos, hlennew⟩
        rw [hloopEq, hstep]
      · refine ⟨_, hpos, m, [], ?_, swapRemove_length hpos, by simp⟩
        rw [List.append_nil, hloopEq, Maze.primStep_skip hgc hk]
  · intro W H ps rnd fuel c hps
    cases hrun : (Maze.new W H ps).randomizedPrim rnd fuel with
    | none => trivial
    | some s =>
      have hnd : s.2.Nodup := Maze.randomizedPrim_nodup hps (by rw [hrun])
      exact List.nodup_iff_count_le_one.1 hnd c
  · intro W H ps rnd fuel hps hgw hgh hfuel
    obtain ⟨m', walls', hrun, -, -, hcond⟩ :=
      Maze.randomizedPrim_spec hps hgw hgh rnd fuel
    obtain rfl : walls' = [] := hcond hfuel
    exact ⟨m', hrun⟩

/-- Witness for C3: conjunct (i) at `mazeWit` with a singleton frontier,
conjuncts (ii) and (iii) on the 8-by-8 run. -/
theorem claim3_witness :
    (mazeWit.WF ∧ (∀ e ∈ [(⟨0, 1⟩ : Coord)], mazeWit.InGrid e) ∧
      ∃ (pos : Nat) (hpos : pos < [(⟨0, 1⟩ : Coord)].length) (m' : Maze)
        (new : List Coord),
        mazeWit.primLoop [⟨0, 1⟩] rndWit 0 (0 + 1) =
          m'.primLoop (swapRemove [⟨0, 1⟩] pos ++ new) rndWit (0 + 1) 0 ∧
        (swapRemove [⟨0, 1⟩] pos).length = [(⟨0, 1⟩ : Coord)].length - 1 ∧
        new.length ≤ 4) ∧
    (1 ≤ 4 ∧ ((Maze.new 8 8 4).randomizedPrim rndWit 40).elim True
      (fun s => s.2.count ⟨0, 1⟩ ≤ 1)) ∧
    (primFuel 8 8 4 ≤ 40 ∧
      ∃ m', (Maze.new 8 8 4).randomizedPrim rndWit 40 = some (m', [])) :=
  ⟨⟨by decide, by decide,
      claim3_termination.1 mazeWit ⟨0, 1⟩ [] rndWit 0 0 (by decide) (by decide)⟩,
    ⟨by decide, claim3_termination.2.1 8 8 4 rndWit 40 ⟨0, 1⟩ (by decide)⟩,
    ⟨by decide, claim3_termination.2.2 8 8 4 rndWit 40 (by decide) (by decide)
      (by decide) (by decide)⟩⟩

/-- Counterexample to C4 as stated: on the zero-size grid (`width = height
= 0`, grid dimensions `0`), `randomized_prim` is not a no-op that leaves
the raster unchanged — the initial `draw_path((0,0))` performs
out-of-bounds `put_pixel` calls (a panic in the image crate), so the run
fails instead of returning with the raster intact. -/
theorem claim4_counterexample :
    (Maze.new 0 0 4).randomizedPrim rndWit 5 = none :=
  Maze.randomizedPrim_degenerate (by decide) (Or.inl (by decide)) rndWit 5

/-- C4 (amended): generation cannot fail at runtime on any grid with
`grid_width ≥ 1` and `grid_height ≥ 1`; but on a grid with `grid_width = 0`
or `grid_height = 0` the run fails on an out-of-bounds raster write inside
the very first `draw_path` (it is not a no-op and does not preserve the
raster — in Rust it panics). -/
theorem claim4_failure_semantics (W H ps : Nat) (rnd : Nat → Nat × Nat)
    (fuel : Nat) (hps : 1 ≤ ps) :
    (1 ≤ W / ps → 1 ≤ H / ps →
      ((Maze.new W H ps).randomizedPrim rnd fuel).isSome = true) ∧
    (W / ps = 0 ∨ H / ps = 0 →
      (Maze.new W H ps).randomizedPrim rnd fuel = none) := by
  constructor
  · intro hgw hgh
    obtain ⟨m', walls', hrun, -, -, -⟩ :=
      Maze.randomizedPrim_spec hps hgw hgh rnd fuel
    rw [hrun]
    rfl
  · intro hdeg
    exact Maze.randomizedPrim_degenerate hps hdeg rnd fuel

/-- Witness for C4 (amended): both branches at concrete grids. -/
theorem claim4_witness :
    (1 ≤ 4 ∧ 1 ≤ 8 / 4 ∧
      ((Maze.new 8 8 4).randomizedPrim rndWit 40).isSome = true) ∧
    (8 / 16 = 0 ∧ (Maze.new 8 8 16).randomizedPrim rndWit 40 = none) :=
  ⟨⟨by decide, by decide,
      (claim4_failure_semantics 8 8 4 rndWit 40 (by decide)).1 (by decide)
        (by decide)⟩,
    ⟨by decide,
      (claim4_failure_semantics 8 8 16 rndWit 40 (by decide)).2
        (Or.inl (by decide))⟩⟩

/-- The proposition asserted by C5: in some execution of `randomized_prim`
(some grid with positive cell size, some randomness), at some point of the
run a coordinate occurs more than once in the frontier sequence ("entries
may logically duplicate").  The fuel parameter exposes every intermediate
state, so this quantifies over all observation points of all runs. -/
def FrontierDuplicates : Prop :=
  ∃ (W H ps : Nat) (rnd : Nat → Nat × Nat) (fuel : Nat) (m' : Maze)
    (walls' : List Coord), 1 ≤ ps ∧
      (Maze.new W H ps).randomizedPrim rnd fuel = some (m', walls') ∧
      ¬walls'.Nodup

/-- Counterexample to C5: its negation.  No execution ever pushes a
coordinate onto the frontier twice: a cell is enqueued only while
`Undefined` and is painted `Wall` in the same breath, so at every reachable
state the frontier is duplicate-free. -/
theorem claim5_counterexample : ¬FrontierDuplicates := by
  rintro ⟨W, H, ps, rnd, fuel, m', walls', hps, hrun, hdup⟩
  exact hdup (Maze.randomizedPrim_nodup hps hrun)

/-- C5 (amended): at every observable point of every execution the frontier
sequence is duplicate-free — a cell can never be pushed a second time,
because the first push repaints it `Wall` and pushes happen only for
`Undefined` cells.  (Consequently there are no lazy duplicate resolutions
to perform at pop time.) -/
theorem claim5_frontier_nodup (W H ps : Nat) (rnd : Nat → Nat × Nat)
    (fuel : Nat) (hps : 1 ≤ ps) :
    ((Maze.new W H ps).randomizedPrim rnd fuel).elim True
      (fun s => s.2.Nodup) := by
  cases hrun : (Maze.new W H ps).randomizedPrim rnd fuel with
  | none => trivial
  | some s => exact Maze.randomizedPrim_nodup hps (by rw [hrun])

/-- Witness for C5 (amended) on the 8-by-8 grid. -/
theorem claim5_witness :
    1 ≤ 4 ∧ ((Maze.new 8 8 4).randomizedPrim rndWit 7).elim True
      (fun s => s.2.Nodup) :=
  ⟨by decide, claim5_frontier_nodup 8 8 4 rndWit 7 (by decide)⟩

/-- C10: path classification is monotone along every execution.  If the
state reached after `fuel1` iterations classifies cell `c` as `Path`, then
the state of the same run observed after any `fuel2 ≥ fuel1` iterations
still classifies `c` as `Path`: no step ever repaints a `Path` cell,
because `draw_wall` is only invoked on cells checked to be `Undefined`. -/
theorem claim10_path_monotone (W H ps : Nat) (rnd : Nat → Nat × Nat)
    (fuel1 fuel2 : Nat) (hps : 1 ≤ ps) (hf : fuel1 ≤ fuel2) (c : Coord) :
    ((Maze.new W H ps).randomizedPrim rnd fuel1).elim True (fun s1 =>
      s1.1.cellKind c = .path →
        ((Maze.new W H ps).randomizedPrim rnd fuel2).elim True (fun s2 =>
          s2.1.cellKind c = .path)) := by
  by_cases hdeg : W / ps = 0 ∨ H / ps = 0
  · rw [Maze.randomizedPrim_degenerate hps hdeg rnd fuel1]
    trivial
  · push_neg at hdeg
    obtain ⟨m2, walls0, hinit, hinv, -, -, -⟩ :=
      @Maze.primInit_spec W H ps hps (Nat.one_le_iff_ne_zero.2 hdeg.1)
        (Nat.one_le_iff_ne_zero.2 hdeg.2)
    obtain ⟨m1', w1', hrun1, hinv1, -, -, -⟩ :=
      Maze.primLoop_spec fuel1 m2 walls0 rnd 0 hinv
    rw [Maze.randomizedPrim_eq rnd fuel1 hinit, hrun1]
    intro hpath
    obtain ⟨d2, rfl⟩ : ∃ d2, fuel2 = fuel1 + d2 := ⟨fuel2 - fuel1, by omega⟩
    obtain ⟨m2', w2', hrun2, -, hpp2, -, -⟩ :=
      Maze.primLoop_spec d2 m1' w1' rnd (0 + fuel1) hinv1
    rw [Maze.randomizedPrim_eq rnd (fuel1 + d2) hinit,
      Maze.primLoop_add fuel1 m2 walls0 rnd 0 d2, hrun1]
    show (Option.elim (m1'.primLoop w1' rnd (0 + fuel1) d2) True
      fun s2 => s2.1.cellKind c = CellKind.path)
    rw [hrun2]
    exact hpp2 c hpath

/-- Witness for C10 on the 8-by-8 grid, observing fuel 1 and fuel 3. -/
theorem claim10_witness :
    (1 ≤ 4 ∧ 1 ≤ 3) ∧
      ((Maze.new 8 8 4).randomizedPrim rndWit 1).elim True (fun s1 =>
        s1.1.cellKind ⟨0, 0⟩ = .path →
          ((Maze.new 8 8 4).randomizedPrim rndWit 3).elim True (fun s2 =>
            s2.1.cellKind ⟨0, 0⟩ = .path)) :=
  ⟨⟨by decide, by decide⟩,
    claim10_path_monotone 8 8 4 rndWit 1 3 (by decide) (by decide) ⟨0, 0⟩⟩
